import Mathlib

/-!
Shallow embedding of the Velocity-Dex matching engine core
(crates/engine-core/src: lib.rs, wal.rs, processor.rs).

Machine integers (u64, u32, usize) are modelled as `Nat`; the engine only
compares, decrements by `min`, and copies them, so no overflow arises in the
modelled operations.  `BTreeMap<Price, VecDeque<usize>>` is modelled as a
list of (price, queue) pairs kept sorted by strictly ascending price;
`HashMap<OrderId, usize>` as an association list (only get/insert/remove are
used, so ordering is unobservable); `Slab<Order>` as a list of entries that
are either occupied or vacant with a free-list pointer, following the `slab`
crate (insert takes `next`; remove makes the slot vacant pointing at the old
`next`).  Rust panics (`expect("Stale index in queue")`, a corrupt slab free
list) are modelled by returning `none` from the transition function.
-/

namespace VelocityDex

/-- Side of an order (lib.rs `Side`). -/
inductive Side where
  | bid
  | ask
deriving DecidableEq

/-- lib.rs `Side::opposite`. -/
def Side.opposite : Side → Side
  | .bid => .ask
  | .ask => .bid

/-- lib.rs `Order`. -/
structure Order where
  id : Nat
  user_id : Nat
  price : Nat
  quantity : Nat
  side : Side
  timestamp : Nat
deriving DecidableEq

/-- lib.rs `EngineEvent`. -/
inductive EngineEvent where
  | orderPlaced (id user_id price quantity : Nat) (side : Side)
  | orderCancelled (id : Nat)
  | tradeExecuted (maker_id taker_id price quantity : Nat)
deriving DecidableEq

/-- lib.rs `OrderLevel`. -/
structure OrderLevel where
  price : Nat
  quantity : Nat
deriving DecidableEq

/-- lib.rs `LogEntry`. -/
inductive LogEntry where
  | place (order_id user_id : Nat) (side : Side) (price quantity : Nat)
  | cancel (order_id user_id : Nat)
deriving DecidableEq

/-! ### Slab model (the `slab` crate as used by `order_store`) -/

/-- One slot of the slab: occupied by an order, or vacant with the index of
the next free slot (the crate's free list). -/
inductive SlabEntry where
  | vacant (nxt : Nat)
  | occupied (o : Order)
deriving DecidableEq

/-- `Slab<Order>`: the entry vector and the head of the free list. -/
structure Slab where
  entries : List SlabEntry
  nxt : Nat
deriving DecidableEq

def Slab.empty : Slab := ⟨[], 0⟩

/-- `slab.get(i)` restricted to occupied slots (what `order_store.get` sees). -/
def slabGet (s : Slab) (i : Nat) : Option Order :=
  match s.entries.get? i with
  | some (.occupied o) => some o
  | _ => none

/-- `slab.insert(o)`: take the free-list head; `none` models the crate's
unreachable corrupt-free-list state. -/
def slabInsert (s : Slab) (o : Order) : Option (Nat × Slab) :=
  if s.nxt = s.entries.length then
    some (s.nxt, ⟨s.entries ++ [.occupied o], s.nxt + 1⟩)
  else
    match s.entries.get? s.nxt with
    | some (.vacant n) => some (s.nxt, ⟨s.entries.set s.nxt (.occupied o), n⟩)
    | _ => none

/-- `slab.remove(i)` on an occupied slot: vacate it onto the free list.  On a
vacant or out-of-range slot the crate panics; every call site in the engine
first obtained the order via `get`, so that branch is unreachable and modelled
as the identity. -/
def slabRemove (s : Slab) (i : Nat) : Slab :=
  match s.entries.get? i with
  | some (.occupied _) => ⟨s.entries.set i (.vacant s.nxt), i⟩
  | _ => s

/-- In-place mutation through `get_mut` (only the maker's quantity is ever
mutated). -/
def slabSet (s : Slab) (i : Nat) (o : Order) : Slab :=
  ⟨s.entries.set i (.occupied o), s.nxt⟩

/-! ### Price maps and the order index -/

/-- `BTreeMap<Price, VecDeque<usize>>`, as a price-sorted association list. -/
abbrev PriceMap := List (Nat × List Nat)

/-- `map.get(&p)` / `map.get_mut(&p)`. -/
def pmGet : PriceMap → Nat → Option (List Nat)
  | [], _ => none
  | e :: rest, p => if e.1 = p then some e.2 else pmGet rest p

/-- `map.remove(&p)`. -/
def pmErase (m : PriceMap) (p : Nat) : PriceMap :=
  m.filter (fun e => decide (e.1 ≠ p))

/-- Writing back a queue mutated through `iter_mut` / `get_mut`. -/
def pmSet (m : PriceMap) (p : Nat) (q : List Nat) : PriceMap :=
  m.map (fun e => if e.1 = p then (p, q) else e)

/-- `map.entry(p).or_insert_with(VecDeque::new).push_back(i)`:
insert `i` at the back of the queue at price `p`, creating the level in
sorted position if absent. -/
def pmPushBack : PriceMap → Nat → Nat → PriceMap
  | [], p, i => [(p, [i])]
  | e :: rest, p, i =>
    if p < e.1 then (p, [i]) :: e :: rest
    else if p = e.1 then (e.1, e.2 ++ [i]) :: rest
    else e :: pmPushBack rest p i

/-- `HashMap<OrderId, usize>`. -/
abbrev OrderIndex := List (Nat × Nat)

/-- `order_index.get(&id)`. -/
def idxLookup : OrderIndex → Nat → Option Nat
  | [], _ => none
  | e :: rest, k => if e.1 = k then some e.2 else idxLookup rest k

/-- `order_index.remove(&id)`. -/
def idxErase (m : OrderIndex) (k : Nat) : OrderIndex :=
  m.filter (fun e => decide (e.1 ≠ k))

/-- `order_index.insert(id, idx)` (replacing semantics, observationally). -/
def idxInsert (m : OrderIndex) (k v : Nat) : OrderIndex :=
  (k, v) :: idxErase m k

/-! ### The order book -/

/-- lib.rs `OrderBook`. -/
structure OrderBook where
  order_store : Slab
  bids : PriceMap
  asks : PriceMap
  order_index : OrderIndex
  sequence : Nat
deriving DecidableEq

/-- `OrderBook::new()`. -/
def OrderBook.new : OrderBook := ⟨Slab.empty, [], [], [], 0⟩

/-- The side-`sd` price map of a book. -/
def OrderBook.sideMap (b : OrderBook) : Side → PriceMap
  | .bid => b.bids
  | .ask => b.asks

/-- The inner `while let Some(&maker_idx) = order_queue.front()` loop of
`place_limit_order` (lib.rs lines 151-194): consume the FIFO queue at the
best opposite price `bp`.  Returns the remaining taker quantity, the
remaining queue, the updated store and the accumulated events; `none` models
the `expect("Stale index in queue")` panic. -/
def fillQueue (user_id order_id bp : Nat) :
    Nat → List Nat → Slab → List EngineEvent →
    Option (Nat × List Nat × Slab × List EngineEvent)
  | qty, [], store, events => some (qty, [], store, events)
  | qty, i :: rest, store, events =>
    match slabGet store i with
    | none => none
    | some maker =>
      if maker.user_id = user_id then
        -- Self-trade prevention: pop, emit cancel, remove from slab, continue.
        fillQueue user_id order_id bp qty rest (slabRemove store i)
          (events ++ [.orderCancelled maker.id])
      else
        let trade_qty := min qty maker.quantity
        let events' := events ++
          [.tradeExecuted maker.id order_id bp trade_qty]
        let qty' := qty - trade_qty
        if maker.quantity - trade_qty = 0 then
          -- Maker exhausted: pop from queue, remove from slab.
          if qty' = 0 then some (qty', rest, slabRemove store i, events')
          else fillQueue user_id order_id bp qty' rest (slabRemove store i) events'
        else
          -- Maker partially filled: update it in place.  Here
          -- trade_qty = qty, so the taker is exhausted and the Rust loop
          -- breaks at its `if quantity == 0` check.
          some (qty', i :: rest,
            slabSet store i { maker with quantity := maker.quantity - trade_qty },
            events')

/-- The outer `loop` of `place_limit_order` (lib.rs lines 121-203): walk the
opposite side best-price-first.  `fuel` bounds the number of iterations; the
caller passes `opposite.length + 1`, which is provably sufficient (each
continuing iteration removes a price level, except the last one, which has
quantity 0). -/
def matchLoop (side : Side) (order_id user_id price : Nat) :
    Nat → Nat → OrderBook → List EngineEvent →
    Option (Nat × OrderBook × List EngineEvent)
  | 0, _, _, _ => none
  | _ + 1, 0, b, events => some (0, b, events)
  | fuel + 1, qty, b, events =>
    let bestOpt := match side with
      | .bid => b.asks.head?
      | .ask => b.bids.getLast?
    match bestOpt with
    | none => some (qty, b, events)
    | some (bp, q) =>
      let matchable : Bool := match side with
        | .bid => decide (bp ≤ price)
        | .ask => decide (bp ≥ price)
      if matchable then
        match fillQueue user_id order_id bp qty q b.order_store events with
        | none => none
        | some (qty', q', store', events') =>
          let b' : OrderBook :=
            if q' = [] then
              match side with
              | .bid => { b with asks := pmErase b.asks bp, order_store := store' }
              | .ask => { b with bids := pmErase b.bids bp, order_store := store' }
            else
              match side with
              | .bid => { b with asks := pmSet b.asks bp q', order_store := store' }
              | .ask => { b with bids := pmSet b.bids bp q', order_store := store' }
          matchLoop side order_id user_id price fuel qty' b' events'
      else some (qty, b, events)

/-- `OrderBook::place_limit_order` (lib.rs lines 109-239). -/
def place_limit_order (b : OrderBook) (order_id user_id : Nat) (side : Side)
    (price quantity : Nat) : Option (List EngineEvent × OrderBook) :=
  let oppLen := match side with
    | .bid => b.asks.length
    | .ask => b.bids.length
  match matchLoop side order_id user_id price (oppLen + 1) quantity b [] with
  | none => none
  | some (qty', b1, events) =>
    if qty' > 0 then
      let new_order : Order :=
        { id := order_id, user_id := user_id, price := price,
          quantity := qty', side := side, timestamp := 0 }
      match slabInsert b1.order_store new_order with
      | none => none
      | some (idx, store') =>
        let b2 : OrderBook :=
          match side with
          | .bid => { b1 with
                      order_store := store',
                      order_index := idxInsert b1.order_index order_id idx,
                      bids := pmPushBack b1.bids price idx }
          | .ask => { b1 with
                      order_store := store',
                      order_index := idxInsert b1.order_index order_id idx,
                      asks := pmPushBack b1.asks price idx }
        some (events ++
          [.orderPlaced order_id user_id price qty' side], b2)
    else some (events, b1)

/-- `OrderBook::cancel_order` (lib.rs lines 241-295). -/
def cancel_order (b : OrderBook) (order_id user_id : Nat) :
    List EngineEvent × OrderBook :=
  match idxLookup b.order_index order_id with
  | none => ([], b)
  | some internal_idx =>
    match slabGet b.order_store internal_idx with
    | none => ([], b)
    | some order =>
      if order.user_id ≠ user_id then ([], b)
      else
        let price := order.price
        let b1 : OrderBook :=
          match order.side with
          | .bid =>
            match pmGet b.bids price with
            | none => b
            | some q =>
              let q' := q.filter (fun i => decide (i ≠ internal_idx))
              if q' = [] then { b with bids := pmErase b.bids price }
              else { b with bids := pmSet b.bids price q' }
          | .ask =>
            match pmGet b.asks price with
            | none => b
            | some q =>
              let q' := q.filter (fun i => decide (i ≠ internal_idx))
              if q' = [] then { b with asks := pmErase b.asks price }
              else { b with asks := pmSet b.asks price q' }
        let b2 : OrderBook :=
          { b1 with
            order_index := idxErase b1.order_index order_id,
            order_store := slabRemove b1.order_store internal_idx }
        ([.orderCancelled order_id], b2)

/-- Total remaining quantity at one level (`unwrap_or(0)` for dead slots). -/
def levelQty (store : Slab) (q : List Nat) : Nat :=
  (q.map (fun i => ((slabGet store i).map Order.quantity).getD 0)).sum

/-- `OrderBook::get_depth` (lib.rs lines 297-323): `(asks, bids)`,
asks ascending, bids descending. -/
def get_depth (b : OrderBook) (limit : Nat) :
    List OrderLevel × List OrderLevel :=
  ((b.asks.take limit).map (fun e => ⟨e.1, levelQty b.order_store e.2⟩),
   ((b.bids.reverse).take limit).map (fun e => ⟨e.1, levelQty b.order_store e.2⟩))

end VelocityDex

namespace VelocityDex

/-! ### Event measures and the processor replay loop -/

/-- Sum of the `quantity` fields of the `TradeExecuted` events in a list. -/
def tradeQtySum (ev : List EngineEvent) : Nat :=
  (ev.map (fun e => match e with
    | .tradeExecuted _ _ _ q => q
    | _ => 0)).sum

/-- The `quantity` field of the first `OrderPlaced` event, or 0 if none. -/
def placedQty : List EngineEvent → Nat
  | [] => 0
  | .orderPlaced _ _ _ q _ :: _ => q
  | _ :: rest => placedQty rest

/-- Whether an event is an `OrderPlaced`. -/
def isPlaced : EngineEvent → Bool
  | .orderPlaced _ _ _ _ _ => true
  | _ => false

/-- The maker ids of the `TradeExecuted` events, in emission order. -/
def tradeMakers (ev : List EngineEvent) : List Nat :=
  ev.filterMap (fun e => match e with
    | .tradeExecuted m _ _ _ => some m
    | _ => none)

/-- One step of the processor's recovery loop (processor.rs lines 49-58):
apply a log entry through the ordinary mutators, discarding the events. -/
def applyEntry (b : OrderBook) : LogEntry → Option OrderBook
  | .place oid uid sd p q => (place_limit_order b oid uid sd p q).map Prod.snd
  | .cancel oid uid => some (cancel_order b oid uid).2

/-- The whole recovery loop: fold `applyEntry` over the log, in order. -/
def replayAll : OrderBook → List LogEntry → Option OrderBook
  | b, [] => some b
  | b, e :: rest =>
    match applyEntry b e with
    | none => none
    | some b' => replayAll b' rest

end VelocityDex

namespace VelocityDex

/-! ### C10: zero-quantity placement is a definite no-op -/

/-- C10: for every book state, `place_limit_order` with `quantity = 0`
returns an empty event list and leaves the book completely unchanged: the
matching loop breaks at once on `quantity == 0` and the maker phase is
guarded by `quantity > 0`. -/
theorem place_limit_order_zero_qty (b : OrderBook) (order_id user_id : Nat)
    (side : Side) (price : Nat) :
    place_limit_order b order_id user_id side price 0 = some ([], b) := by
  unfold place_limit_order
  cases side <;> simp [matchLoop]

/-! ### C8: the self-trade-prevention step -/

/-- C8: when the matching loop meets a resting maker owned by the incoming
order's user, it pops the maker, emits exactly one `OrderCancelled` for it
(no `TradeExecuted`), removes it from the slab, and continues with the rest
of the same level's queue with the incoming quantity unchanged. -/
theorem fillQueue_self_trade_step (user_id order_id bp qty i : Nat)
    (rest : List Nat) (store : Slab) (events : List EngineEvent) (maker : Order)
    (hget : slabGet store i = some maker) (huser : maker.user_id = user_id) :
    fillQueue user_id order_id bp qty (i :: rest) store events =
      fillQueue user_id order_id bp qty rest (slabRemove store i)
        (events ++ [.orderCancelled maker.id]) := by
  conv_lhs => unfold fillQueue
  rw [hget]
  simp [huser]

/-- Witness for C8 at a concrete input: one resting ask owned by user 1,
incoming from the same user. -/
theorem fillQueue_self_trade_step_witness :
    fillQueue 1 2 100 5 [0] ⟨[.occupied ⟨7, 1, 100, 4, .ask, 0⟩], 1⟩ [] =
      fillQueue 1 2 100 5 []
        (slabRemove ⟨[.occupied ⟨7, 1, 100, 4, .ask, 0⟩], 1⟩ 0)
        ([] ++ [.orderCancelled 7]) :=
  fillQueue_self_trade_step 1 2 100 5 0 [] _ [] ⟨7, 1, 100, 4, .ask, 0⟩
    (by decide) (by decide)

end VelocityDex

namespace VelocityDex

/-! ### C1 / C2: the stale order-index bug -/

/-- C1 fails on the code: after `place(1,u1,Ask,100,10)` followed by the
fully matching `place(2,u2,Bid,100,10)`, the maker is removed from the order
store (slot 0 is vacant) but its entry survives in the order index, because
the matching loop never calls `order_index.remove`.  Index coherence is
broken at rest. -/
theorem index_coherence_broken_after_full_fill :
    (replayAll OrderBook.new
        [.place 1 1 .ask 100 10, .place 2 2 .bid 100 10]).map
      (fun b => (idxLookup b.order_index 1, slabGet b.order_store 0)) =
      some (some 0, none) := by
  decide

/-- C2 fails on the code: continue the C1 scenario with
`place(3,u2,Ask,100,5)`, which reuses slab slot 0.  No order with id 1 rests
in the book (the store holds exactly order 3), yet
`cancel_order(1, u2)` returns `[OrderCancelled 1]` and removes resting order
3 from the ask side — not an empty-event no-op. -/
theorem cancel_unknown_id_mutates_book :
    (replayAll OrderBook.new
        [.place 1 1 .ask 100 10, .place 2 2 .bid 100 10,
         .place 3 2 .ask 100 5]).map
      (fun b =>
        (b.order_store.entries, b.asks,
         (cancel_order b 1 2).1, (cancel_order b 1 2).2.asks)) =
      some ([.occupied ⟨3, 2, 100, 5, .ask, 0⟩], [(100, [0])],
            [.orderCancelled 1], []) := by
  rfl

end VelocityDex

namespace VelocityDex

/-! ### Branch equations for `fillQueue` -/

theorem fillQueue_nil (user_id order_id bp qty : Nat) (store : Slab)
    (ev : List EngineEvent) :
    fillQueue user_id order_id bp qty [] store ev = some (qty, [], store, ev) := by
  unfold fillQueue
  rfl

theorem fillQueue_cons_dead (user_id order_id bp qty i : Nat) (rest : List Nat)
    (store : Slab) (ev : List EngineEvent) (h : slabGet store i = none) :
    fillQueue user_id order_id bp qty (i :: rest) store ev = none := by
  conv_lhs => unfold fillQueue
  rw [h]

theorem fillQueue_cons_stp (user_id order_id bp qty i : Nat) (rest : List Nat)
    (store : Slab) (ev : List EngineEvent) (maker : Order)
    (hget : slabGet store i = some maker) (huser : maker.user_id = user_id) :
    fillQueue user_id order_id bp qty (i :: rest) store ev =
      fillQueue user_id order_id bp qty rest (slabRemove store i)
        (ev ++ [.orderCancelled maker.id]) := by
  conv_lhs => unfold fillQueue
  rw [hget]
  simp [huser]

theorem fillQueue_cons_full_done (user_id order_id bp qty i : Nat)
    (rest : List Nat) (store : Slab) (ev : List EngineEvent) (maker : Order)
    (hget : slabGet store i = some maker) (huser : ¬ maker.user_id = user_id)
    (hm : maker.quantity - qty ⊓ maker.quantity = 0)
    (hq : qty - qty ⊓ maker.quantity = 0) :
    fillQueue user_id order_id bp qty (i :: rest) store ev =
      some (qty - qty ⊓ maker.quantity, rest, slabRemove store i,
        ev ++ [.tradeExecuted maker.id order_id bp (qty ⊓ maker.quantity)]) := by
  conv_lhs => unfold fillQueue
  rw [hget]
  simp [huser, hm, hq]

theorem fillQueue_cons_full_go (user_id order_id bp qty i : Nat)
    (rest : List Nat) (store : Slab) (ev : List EngineEvent) (maker : Order)
    (hget : slabGet store i = some maker) (huser : ¬ maker.user_id = user_id)
    (hm : maker.quantity - qty ⊓ maker.quantity = 0)
    (hq : ¬ qty - qty ⊓ maker.quantity = 0) :
    fillQueue user_id order_id bp qty (i :: rest) store ev =
      fillQueue user_id order_id bp (qty - qty ⊓ maker.quantity) rest
        (slabRemove store i)
        (ev ++ [.tradeExecuted maker.id order_id bp (qty ⊓ maker.quantity)]) := by
  conv_lhs => unfold fillQueue
  rw [hget]
  simp [huser, hm, hq]

theorem fillQueue_cons_partfill (user_id order_id bp qty i : Nat)
    (rest : List Nat) (store : Slab) (ev : List EngineEvent) (maker : Order)
    (hget : slabGet store i = some maker) (huser : ¬ maker.user_id = user_id)
    (hm : ¬ maker.quantity - qty ⊓ maker.quantity = 0) :
    fillQueue user_id order_id bp qty (i :: rest) store ev =
      some (qty - qty ⊓ maker.quantity, i :: rest,
        slabSet store i { maker with quantity := maker.quantity - qty ⊓ maker.quantity },
        ev ++ [.tradeExecuted maker.id order_id bp (qty ⊓ maker.quantity)]) := by
  conv_lhs => unfold fillQueue
  rw [hget]
  simp [huser, hm]

end VelocityDex

namespace VelocityDex

/-! ### Quantity conservation (C4) -/

/-- Event lists containing no `OrderPlaced`. -/
def PlacedFree (ev : List EngineEvent) : Prop := ∀ e ∈ ev, isPlaced e = false

theorem tradeQtySum_append (xs ys : List EngineEvent) :
    tradeQtySum (xs ++ ys) = tradeQtySum xs + tradeQtySum ys := by
  simp [tradeQtySum]

theorem tradeQtySum_trade (m t p q : Nat) :
    tradeQtySum [.tradeExecuted m t p q] = q := by
  simp [tradeQtySum]

theorem tradeQtySum_cancelled (i : Nat) :
    tradeQtySum [.orderCancelled i] = 0 := rfl

theorem placedFree_append {xs ys : List EngineEvent} (hx : PlacedFree xs)
    (hy : PlacedFree ys) : PlacedFree (xs ++ ys) := by
  intro e he
  rcases List.mem_append.mp he with h | h
  · exact hx e h
  · exact hy e h

theorem placedQty_zero {xs : List EngineEvent} (h : PlacedFree xs) :
    placedQty xs = 0 := by
  induction xs with
  | nil => rfl
  | cons e rest ih =>
    have he := h e (by simp)
    have hrest : PlacedFree rest := fun x hx => h x (by simp [hx])
    cases e <;> simp [isPlaced] at he <;> simp [placedQty, ih hrest]

theorem placedQty_append_placed {xs : List EngineEvent} (h : PlacedFree xs)
    (a b c q : Nat) (d : Side) (ys : List EngineEvent) :
    placedQty (xs ++ .orderPlaced a b c q d :: ys) = q := by
  induction xs with
  | nil => rfl
  | cons e rest ih =>
    have he := h e (by simp)
    have hrest : PlacedFree rest := fun x hx => h x (by simp [hx])
    cases e <;> simp [isPlaced] at he <;> simp [placedQty, ih hrest]

/-- Conservation through one price level: the taker quantity decreases by
exactly the sum of the emitted trade quantities, and no `OrderPlaced` is
emitted. -/
theorem fillQueue_conserve (user_id order_id bp : Nat)
    (qty : Nat) (q : List Nat) (store : Slab) (ev : List EngineEvent)
    {qty' : Nat} {q' : List Nat} {store' : Slab} {ev' : List EngineEvent}
    (h : fillQueue user_id order_id bp qty q store ev = some (qty', q', store', ev')) :
    qty + tradeQtySum ev = qty' + tradeQtySum ev' ∧
      (PlacedFree ev → PlacedFree ev') := by
  induction qty, q, store, ev using fillQueue.induct user_id order_id bp
    generalizing qty' q' store' ev' with
  | case1 qty store events =>
    rw [fillQueue_nil] at h
    simp only [Option.some.injEq, Prod.mk.injEq] at h
    obtain ⟨h1, h2, h3, h4⟩ := h
    subst h1; subst h4
    exact ⟨rfl, fun hp => hp⟩
  | case2 qty i rest store events hnone =>
    rw [fillQueue_cons_dead _ _ _ _ _ _ _ _ hnone] at h
    simp at h
  | case3 qty i rest store events maker hget huser ih =>
    rw [fillQueue_cons_stp _ _ _ _ _ _ _ _ _ hget huser] at h
    obtain ⟨hc, hp⟩ := ih h
    rw [tradeQtySum_append, tradeQtySum_cancelled] at hc
    refine ⟨by omega, fun hpf => hp ?_⟩
    exact placedFree_append hpf (by intro e he; simp at he; subst he; rfl)
  | case4 qty i rest store events maker hget huser _tq _qn =>
    rename_i hm hq
    rw [fillQueue_cons_full_done _ _ _ _ _ _ _ _ _ hget huser hm hq] at h
    simp only [Option.some.injEq, Prod.mk.injEq] at h
    obtain ⟨h1, h2, h3, h4⟩ := h
    subst h1; subst h4
    have hmin : qty ⊓ maker.quantity ≤ qty := Nat.min_le_left _ _
    refine ⟨?_, fun hpf => ?_⟩
    · rw [tradeQtySum_append, tradeQtySum_trade]
      omega
    · exact placedFree_append hpf (by intro e he; simp at he; subst he; rfl)
  | case5 qty i rest store events maker hget huser _tq _ev _qn =>
    rename_i hm hq ih
    rw [fillQueue_cons_full_go _ _ _ _ _ _ _ _ _ hget huser hm hq] at h
    obtain ⟨hc, hp⟩ := ih h
    rw [tradeQtySum_append, tradeQtySum_trade] at hc
    have hmin : qty ⊓ maker.quantity ≤ qty := Nat.min_le_left _ _
    refine ⟨by omega, fun hpf => hp ?_⟩
    exact placedFree_append hpf (by intro e he; simp at he; subst he; rfl)
  | case6 qty i rest store events maker hget huser _tq =>
    rename_i hm
    rw [fillQueue_cons_partfill _ _ _ _ _ _ _ _ _ hget huser hm] at h
    simp only [Option.some.injEq, Prod.mk.injEq] at h
    obtain ⟨h1, h2, h3, h4⟩ := h
    subst h1; subst h4
    have hmin : qty ⊓ maker.quantity ≤ qty := Nat.min_le_left _ _
    refine ⟨?_, fun hpf => ?_⟩
    · rw [tradeQtySum_append, tradeQtySum_trade]
      omega
    · exact placedFree_append hpf (by intro e he; simp at he; subst he; rfl)

end VelocityDex

namespace VelocityDex

/-! ### Branch equations for `matchLoop` -/

/-- The best opposite level the matching loop inspects:
`asks.iter_mut().next()` for a bid, `bids.iter_mut().next_back()` for an ask. -/
def bestOpp (side : Side) (b : OrderBook) : Option (Nat × List Nat) :=
  match side with
  | .bid => b.asks.head?
  | .ask => b.bids.getLast?

/-- The `is_matchable` test of lib.rs lines 141-144. -/
def isMatchable (side : Side) (price bp : Nat) : Bool :=
  match side with
  | .bid => decide (bp ≤ price)
  | .ask => decide (bp ≥ price)

/-- The book after one outer iteration: write back the queue at the consumed
best price, dropping the level if its queue emptied (lib.rs lines 196-202). -/
def matchStepBook (side : Side) (b : OrderBook) (bp : Nat) (q' : List Nat)
    (store' : Slab) : OrderBook :=
  if q' = [] then
    match side with
    | .bid => { b with asks := pmErase b.asks bp, order_store := store' }
    | .ask => { b with bids := pmErase b.bids bp, order_store := store' }
  else
    match side with
    | .bid => { b with asks := pmSet b.asks bp q', order_store := store' }
    | .ask => { b with bids := pmSet b.bids bp q', order_store := store' }

theorem matchLoop_zero_fuel (side : Side) (order_id user_id price qty : Nat)
    (b : OrderBook) (ev : List EngineEvent) :
    matchLoop side order_id user_id price 0 qty b ev = none := rfl

theorem matchLoop_zero_qty (side : Side) (order_id user_id price fuel : Nat)
    (b : OrderBook) (ev : List EngineEvent) :
    matchLoop side order_id user_id price (fuel + 1) 0 b ev = some (0, b, ev) := by
  unfold matchLoop
  rfl

theorem matchLoop_no_best (side : Side) (order_id user_id price fuel qty : Nat)
    (b : OrderBook) (ev : List EngineEvent) (hq : qty ≠ 0)
    (hb : bestOpp side b = none) :
    matchLoop side order_id user_id price (fuel + 1) qty b ev = some (qty, b, ev) := by
  cases side
  · simp only [bestOpp] at hb
    rw [matchLoop.eq_3 _ _ _ _ _ _ _ (fun h => hq h), hb]
  · simp only [bestOpp] at hb
    rw [matchLoop.eq_4 _ _ _ _ _ _ _ (fun h => hq h), hb]

theorem matchLoop_not_matchable (side : Side)
    (order_id user_id price fuel qty bp : Nat) (q : List Nat)
    (b : OrderBook) (ev : List EngineEvent) (hq : qty ≠ 0)
    (hb : bestOpp side b = some (bp, q)) (hm : isMatchable side price bp = false) :
    matchLoop side order_id user_id price (fuel + 1) qty b ev = some (qty, b, ev) := by
  cases side
  · simp only [bestOpp] at hb
    simp only [isMatchable] at hm
    rw [matchLoop.eq_3 _ _ _ _ _ _ _ (fun h => hq h), hb]
    simp [hm]
  · simp only [bestOpp] at hb
    simp only [isMatchable] at hm
    rw [matchLoop.eq_4 _ _ _ _ _ _ _ (fun h => hq h), hb]
    simp [hm]

theorem matchLoop_fill_dead (side : Side)
    (order_id user_id price fuel qty bp : Nat) (q : List Nat)
    (b : OrderBook) (ev : List EngineEvent) (hq : qty ≠ 0)
    (hb : bestOpp side b = some (bp, q)) (hm : isMatchable side price bp = true)
    (hf : fillQueue user_id order_id bp qty q b.order_store ev = none) :
    matchLoop side order_id user_id price (fuel + 1) qty b ev = none := by
  cases side
  · simp only [bestOpp] at hb
    simp only [isMatchable] at hm
    rw [matchLoop.eq_3 _ _ _ _ _ _ _ (fun h => hq h), hb]
    simp only [hm, if_true]
    rw [hf]
  · simp only [bestOpp] at hb
    simp only [isMatchable] at hm
    rw [matchLoop.eq_4 _ _ _ _ _ _ _ (fun h => hq h), hb]
    simp only [hm, if_true]
    rw [hf]

theorem matchLoop_step (side : Side)
    (order_id user_id price fuel qty bp : Nat) (q : List Nat)
    (b : OrderBook) (ev : List EngineEvent)
    (qty' : Nat) (q' : List Nat) (store' : Slab) (ev' : List EngineEvent)
    (hq : qty ≠ 0)
    (hb : bestOpp side b = some (bp, q)) (hm : isMatchable side price bp = true)
    (hf : fillQueue user_id order_id bp qty q b.order_store ev =
      some (qty', q', store', ev')) :
    matchLoop side order_id user_id price (fuel + 1) qty b ev =
      matchLoop side order_id user_id price fuel qty'
        (matchStepBook side b bp q' store') ev' := by
  cases side
  · simp only [bestOpp] at hb
    simp only [isMatchable] at hm
    rw [matchLoop.eq_3 _ _ _ _ _ _ _ (fun h => hq h), hb]
    simp only [hm, if_true]
    rw [hf]
    by_cases hq' : q' = [] <;> simp [matchStepBook, hq']
  · simp only [bestOpp] at hb
    simp only [isMatchable] at hm
    rw [matchLoop.eq_4 _ _ _ _ _ _ _ (fun h => hq h), hb]
    simp only [hm, if_true]
    rw [hf]
    by_cases hq' : q' = [] <;> simp [matchStepBook, hq']

end VelocityDex

namespace VelocityDex

/-! ### A side-uniform view of `place_limit_order` -/

/-- Length of the opposite-side map (used as loop fuel). -/
def oppLen (side : Side) (b : OrderBook) : Nat :=
  match side with
  | .bid => b.asks.length
  | .ask => b.bids.length

/-- The book after the maker phase rests the remaining quantity. -/
def restBook (side : Side) (b1 : OrderBook) (order_id idx price : Nat)
    (store' : Slab) : OrderBook :=
  match side with
  | .bid => { b1 with
              order_store := store',
              order_index := idxInsert b1.order_index order_id idx,
              bids := pmPushBack b1.bids price idx }
  | .ask => { b1 with
              order_store := store',
              order_index := idxInsert b1.order_index order_id idx,
              asks := pmPushBack b1.asks price idx }

/-- `place_limit_order`, written through the named helpers. -/
theorem place_limit_order_eq (b : OrderBook) (order_id user_id : Nat)
    (side : Side) (price quantity : Nat) :
    place_limit_order b order_id user_id side price quantity =
      match matchLoop side order_id user_id price (oppLen side b + 1) quantity b [] with
      | none => none
      | some (qty', b1, events) =>
        if qty' > 0 then
          match slabInsert b1.order_store
              { id := order_id, user_id := user_id, price := price,
                quantity := qty', side := side, timestamp := 0 } with
          | none => none
          | some (idx, store') =>
            some (events ++ [.orderPlaced order_id user_id price qty' side],
              restBook side b1 order_id idx price store')
        else some (events, b1) := by
  cases side <;> rfl

theorem tradeQtySum_placed (a b c q : Nat) (d : Side) :
    tradeQtySum [.orderPlaced a b c q d] = 0 := rfl

theorem placedFree_nil : PlacedFree [] := by
  intro e he
  simp at he

/-- Conservation through the whole matching loop. -/
theorem matchLoop_conserve (side : Side) (order_id user_id price : Nat)
    (fuel : Nat) :
    ∀ (qty : Nat) (b : OrderBook) (ev : List EngineEvent)
      {qty' : Nat} {b' : OrderBook} {ev' : List EngineEvent},
      matchLoop side order_id user_id price fuel qty b ev = some (qty', b', ev') →
      qty + tradeQtySum ev = qty' + tradeQtySum ev' ∧
        (PlacedFree ev → PlacedFree ev') := by
  induction fuel with
  | zero =>
    intro qty b ev qty' b' ev' h
    rw [matchLoop_zero_fuel] at h
    simp at h
  | succ fuel ih =>
    intro qty b ev qty' b' ev' h
    by_cases hq : qty = 0
    · subst hq
      rw [matchLoop_zero_qty] at h
      simp only [Option.some.injEq, Prod.mk.injEq] at h
      obtain ⟨h1, h2, h3⟩ := h
      subst h1; subst h3
      exact ⟨rfl, fun hp => hp⟩
    · rcases hb : bestOpp side b with _ | ⟨bp, q⟩
      · rw [matchLoop_no_best _ _ _ _ _ _ _ _ hq hb] at h
        simp only [Option.some.injEq, Prod.mk.injEq] at h
        obtain ⟨h1, h2, h3⟩ := h
        subst h1; subst h3
        exact ⟨rfl, fun hp => hp⟩
      · rcases hm : isMatchable side price bp with _ | _
        · rw [matchLoop_not_matchable _ _ _ _ _ _ _ _ _ _ hq hb hm] at h
          simp only [Option.some.injEq, Prod.mk.injEq] at h
          obtain ⟨h1, h2, h3⟩ := h
          subst h1; subst h3
          exact ⟨rfl, fun hp => hp⟩
        · rcases hf : fillQueue user_id order_id bp qty q b.order_store ev with
            _ | ⟨qm, qq, st, evm⟩
          · rw [matchLoop_fill_dead _ _ _ _ _ _ _ _ _ _ hq hb hm hf] at h
            simp at h
          · rw [matchLoop_step _ _ _ _ _ _ _ _ _ _ _ _ _ _ hq hb hm hf] at h
            obtain ⟨hc1, hp1⟩ := fillQueue_conserve _ _ _ _ _ _ _ hf
            obtain ⟨hc2, hp2⟩ := ih _ _ _ h
            exact ⟨by omega, fun hpf => hp2 (hp1 hpf)⟩

/-! ### C4: quantity conservation for `place_limit_order` -/

/-- C4: for a completed `place_limit_order` call with positive quantity, the
input quantity equals the sum of the `TradeExecuted` quantities in the
returned events plus the `OrderPlaced` quantity when present (0 otherwise). -/
theorem place_limit_order_conserves_quantity (b : OrderBook)
    (order_id user_id : Nat) (side : Side) (price quantity : Nat)
    (ev : List EngineEvent) (b' : OrderBook) (hq : 0 < quantity)
    (h : place_limit_order b order_id user_id side price quantity = some (ev, b')) :
    quantity = tradeQtySum ev + placedQty ev := by
  rw [place_limit_order_eq] at h
  rcases hml : matchLoop side order_id user_id price (oppLen side b + 1)
      quantity b [] with _ | ⟨qty1, b1, ev1⟩
  · rw [hml] at h
    simp at h
  · rw [hml] at h
    dsimp only at h
    obtain ⟨hc, hp⟩ := matchLoop_conserve _ _ _ _ _ _ _ _ hml
    have hpf1 : PlacedFree ev1 := hp placedFree_nil
    by_cases h1 : qty1 > 0
    · rw [if_pos h1] at h
      rcases hins : slabInsert b1.order_store
          { id := order_id, user_id := user_id, price := price,
            quantity := qty1, side := side, timestamp := 0 } with _ | ⟨idx, store'⟩
      · rw [hins] at h
        simp at h
      · rw [hins] at h
        simp only [Option.some.injEq, Prod.mk.injEq] at h
        obtain ⟨h2, h3⟩ := h
        subst h2
        rw [tradeQtySum_append, tradeQtySum_placed,
          placedQty_append_placed hpf1]
        have : tradeQtySum [] = 0 := rfl
        omega
    · rw [if_neg h1] at h
      simp only [Option.some.injEq, Prod.mk.injEq] at h
      obtain ⟨h2, h3⟩ := h
      subst h2
      rw [placedQty_zero hpf1]
      have : tradeQtySum [] = 0 := rfl
      omega

/-- Witness for C4: a bid for 10 crossing a resting ask of 4 trades 4 and
rests 6. -/
theorem place_limit_order_conserves_quantity_witness :
    0 < 10 ∧ (10 : Nat) = tradeQtySum
        [.tradeExecuted 1 2 100 4, .orderPlaced 2 5 100 6 .bid] +
      placedQty [.tradeExecuted 1 2 100 4, .orderPlaced 2 5 100 6 .bid] := by
  constructor
  · decide
  · exact place_limit_order_conserves_quantity
      ⟨⟨[.occupied ⟨1, 4, 100, 4, .ask, 0⟩], 1⟩, [], [(100, [0])], [(1, 0)], 0⟩
      2 5 .bid 100 10
      [.tradeExecuted 1 2 100 4, .orderPlaced 2 5 100 6 .bid]
      ⟨⟨[.occupied ⟨2, 5, 100, 6, .bid, 0⟩], 1⟩, [(100, [0])], [], [(2, 0), (1, 0)], 0⟩
      (by decide) (by decide)

end VelocityDex

namespace VelocityDex

/-! ### Slab lemmas -/

theorem slabRemove_of_none {store : Slab} {i : Nat}
    (h : slabGet store i = none) : slabRemove store i = store := by
  unfold slabGet at h
  unfold slabRemove
  rcases hg : store.entries.get? i with _ | e
  · rfl
  · rw [hg] at h
    cases e with
    | vacant n => rfl
    | occupied o => simp at h

theorem slabGet_slabRemove_self {store : Slab} {i : Nat} {o : Order}
    (h : slabGet store i = some o) : slabGet (slabRemove store i) i = none := by
  unfold slabGet at h ⊢
  unfold slabRemove
  rcases hg : store.entries.get? i with _ | e
  · rw [hg] at h; simp at h
  · rw [hg] at h
    cases e with
    | vacant n => simp at h
    | occupied o' =>
      have hlt : i < store.entries.length := (List.get?_eq_some.mp hg).1
      simp only [List.get?_eq_getElem?, List.getElem?_set_eq hlt]

theorem slabGet_slabRemove_ne {store : Slab} {i j : Nat} (hne : j ≠ i) :
    slabGet (slabRemove store i) j = slabGet store j := by
  unfold slabGet slabRemove
  rcases hg : store.entries.get? i with _ | e
  · rfl
  · cases e with
    | vacant n => rfl
    | occupied o' =>
      simp only [List.get?_eq_getElem?, List.getElem?_set_ne (Ne.symm hne)]

theorem slabGet_of_slabRemove {store : Slab} {i j : Nat} {o : Order}
    (h : slabGet (slabRemove store i) j = some o) : slabGet store j = some o := by
  by_cases hji : j = i
  · subst hji
    rcases hg : slabGet store j with _ | o'
    · rw [slabRemove_of_none hg] at h
      rw [hg] at h
      simp at h
    · rw [slabGet_slabRemove_self hg] at h
      simp at h
  · rw [slabGet_slabRemove_ne hji] at h
    exact h

theorem slabGet_slabSet_self {store : Slab} {i : Nat} {o' : Order}
    (h : slabGet store i = some o') (v : Order) :
    slabGet (slabSet store i v) i = some v := by
  unfold slabGet at h ⊢
  unfold slabSet
  rcases hg : store.entries.get? i with _ | e
  · rw [hg] at h; simp at h
  · have hlt : i < store.entries.length := (List.get?_eq_some.mp hg).1
    simp only [List.get?_eq_getElem?, List.getElem?_set_eq hlt]

theorem slabGet_slabSet_ne {store : Slab} {i j : Nat} (v : Order) (hne : j ≠ i) :
    slabGet (slabSet store i v) j = slabGet store j := by
  unfold slabGet slabSet
  simp only [List.get?_eq_getElem?, List.getElem?_set_ne (Ne.symm hne)]

end VelocityDex

namespace VelocityDex

/-! ### Structural lemmas about `fillQueue` -/

theorem tradeMakers_append (xs ys : List EngineEvent) :
    tradeMakers (xs ++ ys) = tradeMakers xs ++ tradeMakers ys := by
  simp [tradeMakers]

/-- The order ids resting in a queue, front to back. -/
def queueIds (store : Slab) (q : List Nat) : List Nat :=
  q.filterMap (fun i => (slabGet store i).map Order.id)

/-- The remaining queue is made of entries of the original queue. -/
theorem fillQueue_queue_sub (user_id order_id bp : Nat)
    (qty : Nat) (q : List Nat) (store : Slab) (ev : List EngineEvent)
    {qty' : Nat} {q' : List Nat} {store' : Slab} {ev' : List EngineEvent}
    (h : fillQueue user_id order_id bp qty q store ev = some (qty', q', store', ev')) :
    ∀ i ∈ q', i ∈ q := by
  induction qty, q, store, ev using fillQueue.induct user_id order_id bp
    generalizing qty' q' store' ev' with
  | case1 qty store events =>
    rw [fillQueue_nil] at h
    simp only [Option.some.injEq, Prod.mk.injEq] at h
    obtain ⟨h1, h2, h3, h4⟩ := h
    subst h2
    intro i hi
    simp at hi
  | case2 qty i rest store events hnone =>
    rw [fillQueue_cons_dead _ _ _ _ _ _ _ _ hnone] at h
    simp at h
  | case3 qty i rest store events maker hget huser ih =>
    rw [fillQueue_cons_stp _ _ _ _ _ _ _ _ _ hget huser] at h
    intro j hj
    exact List.mem_cons_of_mem _ (ih h j hj)
  | case4 qty i rest store events maker hget huser _tq _qn =>
    rename_i hm hq
    rw [fillQueue_cons_full_done _ _ _ _ _ _ _ _ _ hget huser hm hq] at h
    simp only [Option.some.injEq, Prod.mk.injEq] at h
    obtain ⟨h1, h2, h3, h4⟩ := h
    subst h2
    intro j hj
    exact List.mem_cons_of_mem _ hj
  | case5 qty i rest store events maker hget huser _tq _ev _qn =>
    rename_i hm hq ih
    rw [fillQueue_cons_full_go _ _ _ _ _ _ _ _ _ hget huser hm hq] at h
    intro j hj
    exact List.mem_cons_of_mem _ (ih h j hj)
  | case6 qty i rest store events maker hget huser _tq =>
    rename_i hm
    rw [fillQueue_cons_partfill _ _ _ _ _ _ _ _ _ hget huser hm] at h
    simp only [Option.some.injEq, Prod.mk.injEq] at h
    obtain ⟨h1, h2, h3, h4⟩ := h
    subst h2
    intro j hj
    exact hj

/-- If the taker still has quantity left, the level's queue was exhausted. -/
theorem fillQueue_pos_empty (user_id order_id bp : Nat)
    (qty : Nat) (q : List Nat) (store : Slab) (ev : List EngineEvent)
    {qty' : Nat} {q' : List Nat} {store' : Slab} {ev' : List EngineEvent}
    (h : fillQueue user_id order_id bp qty q store ev = some (qty', q', store', ev'))
    (hq : qty' ≠ 0) : q' = [] := by
  induction qty, q, store, ev using fillQueue.induct user_id order_id bp
    generalizing qty' q' store' ev' with
  | case1 qty store events =>
    rw [fillQueue_nil] at h
    simp only [Option.some.injEq, Prod.mk.injEq] at h
    exact h.2.1.symm
  | case2 qty i rest store events hnone =>
    rw [fillQueue_cons_dead _ _ _ _ _ _ _ _ hnone] at h
    simp at h
  | case3 qty i rest store events maker hget huser ih =>
    rw [fillQueue_cons_stp _ _ _ _ _ _ _ _ _ hget huser] at h
    exact ih h hq
  | case4 qty i rest store events maker hget huser _tq _qn =>
    rename_i hm hqz
    rw [fillQueue_cons_full_done _ _ _ _ _ _ _ _ _ hget huser hm hqz] at h
    simp only [Option.some.injEq, Prod.mk.injEq] at h
    obtain ⟨h1, h2, h3, h4⟩ := h
    subst h1
    exact absurd hqz (by simpa using hq)
  | case5 qty i rest store events maker hget huser _tq _ev _qn =>
    rename_i hm hqz ih
    rw [fillQueue_cons_full_go _ _ _ _ _ _ _ _ _ hget huser hm hqz] at h
    exact ih h hq
  | case6 qty i rest store events maker hget huser _tq =>
    rename_i hm
    rw [fillQueue_cons_partfill _ _ _ _ _ _ _ _ _ hget huser hm] at h
    simp only [Option.some.injEq, Prod.mk.injEq] at h
    obtain ⟨h1, h2, h3, h4⟩ := h
    subst h1
    have hle : qty ⊓ maker.quantity ≤ maker.quantity := Nat.min_le_right _ _
    have : qty ⊓ maker.quantity = qty := by omega
    omega

/-- `fillQueue` succeeds when every queue entry points at a live slot and the
queue has no duplicates. -/
theorem fillQueue_isSome (user_id order_id bp : Nat)
    (qty : Nat) (q : List Nat) (store : Slab) (ev : List EngineEvent)
    (hocc : ∀ i ∈ q, ∃ o, slabGet store i = some o) (hnd : q.Nodup) :
    (fillQueue user_id order_id bp qty q store ev).isSome := by
  induction qty, q, store, ev using fillQueue.induct user_id order_id bp with
  | case1 qty store events =>
    rw [fillQueue_nil]
    rfl
  | case2 qty i rest store events hnone =>
    obtain ⟨o, ho⟩ := hocc i (by simp)
    rw [hnone] at ho
    simp at ho
  | case3 qty i rest store events maker hget huser ih =>
    rw [fillQueue_cons_stp _ _ _ _ _ _ _ _ _ hget huser]
    have hni : i ∉ rest := (List.nodup_cons.mp hnd).1
    apply ih
    · intro j hj
      rw [slabGet_slabRemove_ne (by intro hji; exact hni (hji ▸ hj))]
      exact hocc j (by simp [hj])
    · exact (List.nodup_cons.mp hnd).2
  | case4 qty i rest store events maker hget huser _tq _qn =>
    rename_i hm hq
    rw [fillQueue_cons_full_done _ _ _ _ _ _ _ _ _ hget huser hm hq]
    rfl
  | case5 qty i rest store events maker hget huser _tq _ev _qn =>
    rename_i hm hq ih
    rw [fillQueue_cons_full_go _ _ _ _ _ _ _ _ _ hget huser hm hq]
    have hni : i ∉ rest := (List.nodup_cons.mp hnd).1
    apply ih
    · intro j hj
      rw [slabGet_slabRemove_ne (by intro hji; exact hni (hji ▸ hj))]
      exact hocc j (by simp [hj])
    · exact (List.nodup_cons.mp hnd).2
  | case6 qty i rest store events maker hget huser _tq =>
    rename_i hm
    rw [fillQueue_cons_partfill _ _ _ _ _ _ _ _ _ hget huser hm]
    rfl

end VelocityDex

namespace VelocityDex

/-- Orders at surviving slots existed before the fill, with the same id,
user, price and side (only the quantity may have decreased). -/
theorem fillQueue_store_back (user_id order_id bp : Nat)
    (qty : Nat) (q : List Nat) (store : Slab) (ev : List EngineEvent)
    {qty' : Nat} {q' : List Nat} {store' : Slab} {ev' : List EngineEvent}
    (h : fillQueue user_id order_id bp qty q store ev = some (qty', q', store', ev')) :
    ∀ j o', slabGet store' j = some o' →
      ∃ o, slabGet store j = some o ∧ o.id = o'.id ∧ o.user_id = o'.user_id ∧
        o.price = o'.price ∧ o.side = o'.side := by
  induction qty, q, store, ev using fillQueue.induct user_id order_id bp
    generalizing qty' q' store' ev' with
  | case1 qty store events =>
    rw [fillQueue_nil] at h
    simp only [Option.some.injEq, Prod.mk.injEq] at h
    obtain ⟨h1, h2, h3, h4⟩ := h
    subst h3
    exact fun j o' hj => ⟨o', hj, rfl, rfl, rfl, rfl⟩
  | case2 qty i rest store events hnone =>
    rw [fillQueue_cons_dead _ _ _ _ _ _ _ _ hnone] at h
    simp at h
  | case3 qty i rest store events maker hget huser ih =>
    rw [fillQueue_cons_stp _ _ _ _ _ _ _ _ _ hget huser] at h
    intro j o' hj
    obtain ⟨o, ho, hrest⟩ := ih h j o' hj
    exact ⟨o, slabGet_of_slabRemove ho, hrest⟩
  | case4 qty i rest store events maker hget huser _tq _qn =>
    rename_i hm hq
    rw [fillQueue_cons_full_done _ _ _ _ _ _ _ _ _ hget huser hm hq] at h
    simp only [Option.some.injEq, Prod.mk.injEq] at h
    obtain ⟨h1, h2, h3, h4⟩ := h
    subst h3
    exact fun j o' hj => ⟨o', slabGet_of_slabRemove hj, rfl, rfl, rfl, rfl⟩
  | case5 qty i rest store events maker hget huser _tq _ev _qn =>
    rename_i hm hq ih
    rw [fillQueue_cons_full_go _ _ _ _ _ _ _ _ _ hget huser hm hq] at h
    intro j o' hj
    obtain ⟨o, ho, hrest⟩ := ih h j o' hj
    exact ⟨o, slabGet_of_slabRemove ho, hrest⟩
  | case6 qty i rest store events maker hget huser _tq =>
    rename_i hm
    rw [fillQueue_cons_partfill _ _ _ _ _ _ _ _ _ hget huser hm] at h
    simp only [Option.some.injEq, Prod.mk.injEq] at h
    obtain ⟨h1, h2, h3, h4⟩ := h
    subst h3
    intro j o' hj
    by_cases hji : j = i
    · subst hji
      rw [slabGet_slabSet_self hget] at hj
      simp only [Option.some.injEq] at hj
      subst hj
      exact ⟨maker, hget, rfl, rfl, rfl, rfl⟩
    · rw [slabGet_slabSet_ne _ hji] at hj
      exact ⟨o', hj, rfl, rfl, rfl, rfl⟩

/-- Every event coming out of `fillQueue` either was already in the
accumulator, or is an `OrderCancelled`, or is a trade at price `bp` whose
maker id names an order that was resting in the queue when the level was
entered. -/
theorem fillQueue_trades_src (user_id order_id bp : Nat)
    (qty : Nat) (q : List Nat) (store : Slab) (ev : List EngineEvent)
    {qty' : Nat} {q' : List Nat} {store' : Slab} {ev' : List EngineEvent}
    (h : fillQueue user_id order_id bp qty q store ev = some (qty', q', store', ev')) :
    ∀ e ∈ ev', e ∈ ev ∨ (∃ cid, e = .orderCancelled cid) ∨
      (∃ m tq i o, e = .tradeExecuted m order_id bp tq ∧ i ∈ q ∧
        slabGet store i = some o ∧ o.id = m) := by
  induction qty, q, store, ev using fillQueue.induct user_id order_id bp
    generalizing qty' q' store' ev' with
  | case1 qty store events =>
    rw [fillQueue_nil] at h
    simp only [Option.some.injEq, Prod.mk.injEq] at h
    obtain ⟨h1, h2, h3, h4⟩ := h
    subst h4
    exact fun e he => Or.inl he
  | case2 qty i rest store events hnone =>
    rw [fillQueue_cons_dead _ _ _ _ _ _ _ _ hnone] at h
    simp at h
  | case3 qty i rest store events maker hget huser ih =>
    rw [fillQueue_cons_stp _ _ _ _ _ _ _ _ _ hget huser] at h
    intro e he
    rcases ih h e he with hin | hc | ⟨m, tq, j, o, he2, hjq, hjo, hid⟩
    · rcases List.mem_append.mp hin with h1 | h1
      · exact Or.inl h1
      · simp only [List.mem_singleton] at h1
        exact Or.inr (Or.inl ⟨maker.id, h1⟩)
    · exact Or.inr (Or.inl hc)
    · exact Or.inr (Or.inr ⟨m, tq, j, o, he2, List.mem_cons_of_mem _ hjq,
        slabGet_of_slabRemove hjo, hid⟩)
  | case4 qty i rest store events maker hget huser _tq _qn =>
    rename_i hm hq
    rw [fillQueue_cons_full_done _ _ _ _ _ _ _ _ _ hget huser hm hq] at h
    simp only [Option.some.injEq, Prod.mk.injEq] at h
    obtain ⟨h1, h2, h3, h4⟩ := h
    subst h4
    intro e he
    rcases List.mem_append.mp he with h1 | h1
    · exact Or.inl h1
    · simp only [List.mem_singleton] at h1
      exact Or.inr (Or.inr ⟨maker.id, _, i, maker, h1, by simp, hget, rfl⟩)
  | case5 qty i rest store events maker hget huser _tq _ev _qn =>
    rename_i hm hq ih
    rw [fillQueue_cons_full_go _ _ _ _ _ _ _ _ _ hget huser hm hq] at h
    intro e he
    rcases ih h e he with hin | hc | ⟨m, tq, j, o, he2, hjq, hjo, hid⟩
    · rcases List.mem_append.mp hin with h1 | h1
      · exact Or.inl h1
      · simp only [List.mem_singleton] at h1
        exact Or.inr (Or.inr ⟨maker.id, _, i, maker, h1, by simp, hget, rfl⟩)
    · exact Or.inr (Or.inl hc)
    · exact Or.inr (Or.inr ⟨m, tq, j, o, he2, List.mem_cons_of_mem _ hjq,
        slabGet_of_slabRemove hjo, hid⟩)
  | case6 qty i rest store events maker hget huser _tq =>
    rename_i hm
    rw [fillQueue_cons_partfill _ _ _ _ _ _ _ _ _ hget huser hm] at h
    simp only [Option.some.injEq, Prod.mk.injEq] at h
    obtain ⟨h1, h2, h3, h4⟩ := h
    subst h4
    intro e he
    rcases List.mem_append.mp he with h1 | h1
    · exact Or.inl h1
    · simp only [List.mem_singleton] at h1
      exact Or.inr (Or.inr ⟨maker.id, _, i, maker, h1, by simp, hget, rfl⟩)

end VelocityDex

namespace VelocityDex

theorem queueIds_congr {s1 s2 : Slab} {q : List Nat}
    (h : ∀ i ∈ q, slabGet s1 i = slabGet s2 i) :
    queueIds s1 q = queueIds s2 q := by
  unfold queueIds
  exact List.filterMap_congr (fun i hi => by rw [h i hi])

/-- FIFO at a price level: with all resting users distinct from the taker,
the emitted trade makers are exactly a front prefix of the queue's ids. -/
theorem fillQueue_fifo (user_id order_id bp : Nat)
    (qty : Nat) (q : List Nat) (store : Slab) (ev : List EngineEvent)
    {qty' : Nat} {q' : List Nat} {store' : Slab} {ev' : List EngineEvent}
    (h : fillQueue user_id order_id bp qty q store ev = some (qty', q', store', ev'))
    (hnd : q.Nodup)
    (husers : ∀ i ∈ q, ∀ o, slabGet store i = some o → o.user_id ≠ user_id) :
    ∃ k, tradeMakers ev' = tradeMakers ev ++ (queueIds store q).take k := by
  induction qty, q, store, ev using fillQueue.induct user_id order_id bp
    generalizing qty' q' store' ev' with
  | case1 qty store events =>
    rw [fillQueue_nil] at h
    simp only [Option.some.injEq, Prod.mk.injEq] at h
    obtain ⟨h1, h2, h3, h4⟩ := h
    subst h4
    exact ⟨0, by simp [queueIds]⟩
  | case2 qty i rest store events hnone =>
    rw [fillQueue_cons_dead _ _ _ _ _ _ _ _ hnone] at h
    simp at h
  | case3 qty i rest store events maker hget huser ih =>
    exact absurd huser (husers i (by simp) maker hget)
  | case4 qty i rest store events maker hget huser _tq _qn =>
    rename_i hm hq
    rw [fillQueue_cons_full_done _ _ _ _ _ _ _ _ _ hget huser hm hq] at h
    simp only [Option.some.injEq, Prod.mk.injEq] at h
    obtain ⟨h1, h2, h3, h4⟩ := h
    subst h4
    refine ⟨1, ?_⟩
    rw [tradeMakers_append]
    simp [tradeMakers, queueIds, hget]
  | case5 qty i rest store events maker hget huser _tq _ev _qn =>
    rename_i hm hq ih
    rw [fillQueue_cons_full_go _ _ _ _ _ _ _ _ _ hget huser hm hq] at h
    have hni : i ∉ rest := (List.nodup_cons.mp hnd).1
    have hsame : ∀ j ∈ rest, slabGet (slabRemove store i) j = slabGet store j :=
      fun j hj => slabGet_slabRemove_ne (by intro hji; exact hni (hji ▸ hj))
    obtain ⟨k, hk⟩ := ih h (List.nodup_cons.mp hnd).2
      (fun j hj o ho => husers j (by simp [hj]) o ((hsame j hj) ▸ ho))
    refine ⟨k + 1, ?_⟩
    rw [hk, tradeMakers_append, queueIds_congr hsame]
    simp [tradeMakers, queueIds, hget, List.take_succ_cons]
  | case6 qty i rest store events maker hget huser _tq =>
    rename_i hm
    rw [fillQueue_cons_partfill _ _ _ _ _ _ _ _ _ hget huser hm] at h
    simp only [Option.some.injEq, Prod.mk.injEq] at h
    obtain ⟨h1, h2, h3, h4⟩ := h
    subst h4
    refine ⟨1, ?_⟩
    rw [tradeMakers_append]
    simp [tradeMakers, queueIds, hget]

end VelocityDex

namespace VelocityDex

/-! ### Trade provenance through the whole matching loop (towards C6) -/

/-- The opposite-side map the taker consumes. -/
def oppMap (side : Side) (b : OrderBook) : PriceMap :=
  match side with
  | .bid => b.asks
  | .ask => b.bids

theorem bestOpp_mem {side : Side} {b : OrderBook} {bp : Nat} {q : List Nat}
    (h : bestOpp side b = some (bp, q)) : (bp, q) ∈ oppMap side b := by
  cases side
  · exact List.mem_of_mem_head? (by simp [bestOpp] at h; simp [h, oppMap])
  · exact List.mem_of_mem_getLast? (by simp [bestOpp] at h; simp [h, oppMap])

theorem pmErase_subset {m : PriceMap} {p : Nat} {e : Nat × List Nat}
    (h : e ∈ pmErase m p) : e ∈ m :=
  List.mem_of_mem_filter h

theorem pmSet_mem {m : PriceMap} {p : Nat} {q' : List Nat} {e : Nat × List Nat}
    (h : e ∈ pmSet m p q') :
    (e ∈ m ∧ e.1 ≠ p) ∨ (e = (p, q') ∧ ∃ q0, (p, q0) ∈ m) := by
  unfold pmSet at h
  obtain ⟨a, ha, hae⟩ := List.mem_map.mp h
  by_cases hp : a.1 = p
  · rw [if_pos hp] at hae
    subst hp
    exact Or.inr ⟨hae.symm, a.2, by simpa using ha⟩
  · rw [if_neg hp] at hae
    subst hae
    exact Or.inl ⟨ha, hp⟩

theorem matchStepBook_store (side : Side) (b : OrderBook) (bp : Nat)
    (q' : List Nat) (store' : Slab) :
    (matchStepBook side b bp q' store').order_store = store' := by
  by_cases hq : q' = [] <;> cases side <;> simp [matchStepBook, hq]

theorem matchStepBook_opp (side : Side) (b : OrderBook) (bp : Nat)
    (q' : List Nat) (store' : Slab) :
    oppMap side (matchStepBook side b bp q' store') =
      if q' = [] then pmErase (oppMap side b) bp
      else pmSet (oppMap side b) bp q' := by
  by_cases hq : q' = [] <;> cases side <;> simp [matchStepBook, oppMap, hq]

/-- Every trade event of the matching loop names a maker that was resting in
the initial book, at a level the initial book held; the trade price is that
level's price. -/
theorem matchLoop_trades_src (side : Side) (order_id user_id price fuel : Nat) :
    ∀ (qty : Nat) (b : OrderBook) (ev : List EngineEvent)
      {qty1 : Nat} {b1 : OrderBook} {ev1 : List EngineEvent},
      matchLoop side order_id user_id price fuel qty b ev = some (qty1, b1, ev1) →
      ∀ e ∈ ev1, e ∈ ev ∨ (∃ cid, e = .orderCancelled cid) ∨
        (∃ m tq bp q i o, e = .tradeExecuted m order_id bp tq ∧
          (bp, q) ∈ oppMap side b ∧ i ∈ q ∧
          slabGet b.order_store i = some o ∧ o.id = m) := by
  induction fuel with
  | zero =>
    intro qty b ev qty1 b1 ev1 h
    rw [matchLoop_zero_fuel] at h
    simp at h
  | succ fuel ih =>
    intro qty b ev qty1 b1 ev1 h
    by_cases hq : qty = 0
    · subst hq
      rw [matchLoop_zero_qty] at h
      simp only [Option.some.injEq, Prod.mk.injEq] at h
      obtain ⟨h1, h2, h3⟩ := h
      subst h3
      exact fun e he => Or.inl he
    · rcases hb : bestOpp side b with _ | ⟨bp, q⟩
      · rw [matchLoop_no_best _ _ _ _ _ _ _ _ hq hb] at h
        simp only [Option.some.injEq, Prod.mk.injEq] at h
        obtain ⟨h1, h2, h3⟩ := h
        subst h3
        exact fun e he => Or.inl he
      · rcases hm : isMatchable side price bp with _ | _
        · rw [matchLoop_not_matchable _ _ _ _ _ _ _ _ _ _ hq hb hm] at h
          simp only [Option.some.injEq, Prod.mk.injEq] at h
          obtain ⟨h1, h2, h3⟩ := h
          subst h3
          exact fun e he => Or.inl he
        · rcases hf : fillQueue user_id order_id bp qty q b.order_store ev with
            _ | ⟨qm, qq, st, evm⟩
          · rw [matchLoop_fill_dead _ _ _ _ _ _ _ _ _ _ hq hb hm hf] at h
            simp at h
          · rw [matchLoop_step _ _ _ _ _ _ _ _ _ _ _ _ _ _ hq hb hm hf] at h
            intro e he
            rcases ih _ _ _ h e he with hin | hc | hsrc
            · -- event produced by this level's fill
              rcases fillQueue_trades_src _ _ _ _ _ _ _ hf e hin with
                h1 | h1 | ⟨m, tq, i, o, he2, hiq, hio, hid⟩
              · exact Or.inl h1
              · exact Or.inr (Or.inl h1)
              · exact Or.inr (Or.inr ⟨m, tq, bp, q, i, o, he2, bestOpp_mem hb,
                  hiq, hio, hid⟩)
            · exact Or.inr (Or.inl hc)
            · -- event produced deeper in the loop: transfer to the entry book
              obtain ⟨m, tq, bp2, q2, i, o, he2, hlev, hiq, hio, hid⟩ := hsrc
              rw [matchStepBook_store] at hio
              obtain ⟨o0, ho0, hoid, _, _, _⟩ :=
                fillQueue_store_back _ _ _ _ _ _ _ hf i o hio
              rw [matchStepBook_opp] at hlev
              by_cases hqq : qq = []
              · rw [if_pos hqq] at hlev
                exact Or.inr (Or.inr ⟨m, tq, bp2, q2, i, o0, he2,
                  pmErase_subset hlev, hiq, ho0, hoid.trans hid⟩)
              · rw [if_neg hqq] at hlev
                rcases pmSet_mem hlev with ⟨h1, _⟩ | ⟨h1, _⟩
                · exact Or.inr (Or.inr ⟨m, tq, bp2, q2, i, o0, he2, h1, hiq,
                    ho0, hoid.trans hid⟩)
                · -- the still-partially-filled best level
                  have hbp2 : bp2 = bp := by
                    have := congrArg Prod.fst h1
                    simpa using this
                  have hq2 : q2 = qq := by
                    have := congrArg Prod.snd h1
                    simpa using this
                  exact Or.inr (Or.inr ⟨m, tq, bp2, q, i, o0, he2,
                    by rw [hbp2]; exact bestOpp_mem hb,
                    fillQueue_queue_sub _ _ _ _ _ _ _ hf i (hq2 ▸ hiq),
                    ho0, hoid.trans hid⟩)

end VelocityDex

namespace VelocityDex

/-! ### Slab well-formedness: the free list is exactly the vacant slots -/

/-- The free chain starting at a slot index: it ends at `entries.length` and
steps through vacant slots. -/
inductive FreeChain (entries : List SlabEntry) : Nat → List Nat → Prop where
  | nil : FreeChain entries entries.length []
  | cons {i n : Nat} {l : List Nat} :
      entries.get? i = some (.vacant n) → FreeChain entries n l →
      FreeChain entries i (i :: l)

/-- Well-formed slab: the free list from `nxt` is duplicate-free and covers
every vacant slot (the `slab` crate maintains exactly this). -/
def SlabWF (s : Slab) : Prop :=
  ∃ l, FreeChain s.entries s.nxt l ∧ l.Nodup ∧
    ∀ j k, s.entries.get? j = some (.vacant k) → j ∈ l

theorem freeChain_mem_vacant {entries : List SlabEntry} {n : Nat} {l : List Nat}
    (h : FreeChain entries n l) : ∀ j ∈ l, ∃ k, entries.get? j = some (.vacant k) := by
  induction h with
  | nil => intro j hj; simp at hj
  | cons hget _ ih =>
    intro j hj
    rcases List.mem_cons.mp hj with h1 | h1
    · subst h1; exact ⟨_, by assumption⟩
    · exact ih j h1

theorem freeChain_set_out {entries : List SlabEntry} {n : Nat} {l : List Nat}
    (h : FreeChain entries n l) (i : Nat) (x : SlabEntry) (hi : i ∉ l) :
    FreeChain (entries.set i x) n l := by
  induction h with
  | nil =>
    have : (entries.set i x).length = entries.length := List.length_set entries i x
    rw [← this]
    exact FreeChain.nil
  | @cons j m l' hget hch ih =>
    have hji : j ≠ i := fun hji => hi (hji ▸ List.mem_cons_self j l')
    refine FreeChain.cons ?_ (ih (fun hmem => hi (List.mem_cons_of_mem _ hmem)))
    rw [List.get?_eq_getElem?, List.getElem?_set_ne (Ne.symm hji),
      ← List.get?_eq_getElem?]
    exact hget

theorem freeChain_len_nil {entries : List SlabEntry} {l : List Nat}
    (h : FreeChain entries entries.length l) : l = [] := by
  cases h with
  | nil => rfl
  | cons hget _ =>
    have := (List.get?_eq_some.mp hget).1
    omega

/-- Removing an occupied slot keeps the slab well formed. -/
theorem slabWF_slabRemove {s : Slab} (hwf : SlabWF s) (i : Nat) :
    SlabWF (slabRemove s i) := by
  obtain ⟨l, hch, hnd, hcov⟩ := hwf
  rcases hg : s.entries.get? i with _ | e
  · unfold slabRemove
    rw [hg]
    exact ⟨l, hch, hnd, hcov⟩
  · cases e with
    | vacant n =>
      unfold slabRemove
      rw [hg]
      exact ⟨l, hch, hnd, hcov⟩
    | occupied o =>
      have hnotin : i ∉ l := by
        intro hmem
        obtain ⟨k, hk⟩ := freeChain_mem_vacant hch i hmem
        rw [hg] at hk
        simp at hk
      have hlt : i < s.entries.length := (List.get?_eq_some.mp hg).1
      refine ⟨i :: l, ?_, List.nodup_cons.mpr ⟨hnotin, hnd⟩, ?_⟩
      · unfold slabRemove
        rw [hg]
        refine FreeChain.cons ?_ (freeChain_set_out hch i _ hnotin)
        rw [List.get?_eq_getElem?, List.getElem?_set_eq hlt]
      · unfold slabRemove
        rw [hg]
        intro j k hjk
        by_cases hji : j = i
        · subst hji; exact List.mem_cons_self _ _
        · rw [List.get?_eq_getElem?, List.getElem?_set_ne (Ne.symm hji),
            ← List.get?_eq_getElem?] at hjk
          exact List.mem_cons_of_mem _ (hcov j k hjk)

/-- Overwriting an occupied slot with another order keeps the slab well
formed. -/
theorem slabWF_slabSet {s : Slab} {i : Nat} {o : Order}
    (hget : slabGet s i = some o) (hwf : SlabWF s) (v : Order) :
    SlabWF (slabSet s i v) := by
  obtain ⟨l, hch, hnd, hcov⟩ := hwf
  unfold slabGet at hget
  rcases hg : s.entries.get? i with _ | e
  · rw [hg] at hget; simp at hget
  · rw [hg] at hget
    cases e with
    | vacant n => simp at hget
    | occupied o' =>
      have hnotin : i ∉ l := by
        intro hmem
        obtain ⟨k, hk⟩ := freeChain_mem_vacant hch i hmem
        rw [hg] at hk
        simp at hk
      refine ⟨l, freeChain_set_out hch i _ hnotin, hnd, ?_⟩
      intro j k hjk
      by_cases hji : j = i
      · have hlt : i < s.entries.length := (List.get?_eq_some.mp hg).1
        rw [hji] at hjk
        unfold slabSet at hjk
        simp only at hjk
        rw [List.get?_eq_getElem?, List.getElem?_set_eq hlt] at hjk
        simp at hjk
      · unfold slabSet at hjk
        simp only at hjk
        rw [List.get?_eq_getElem?, List.getElem?_set_ne (Ne.symm hji),
          ← List.get?_eq_getElem?] at hjk
        exact hcov j k hjk

end VelocityDex

namespace VelocityDex

theorem freeChain_nil_inv {entries : List SlabEntry} {n : Nat}
    (h : FreeChain entries n []) : n = entries.length := by
  cases h
  rfl

theorem freeChain_cons_inv {entries : List SlabEntry} {n hd : Nat} {l' : List Nat}
    (h : FreeChain entries n (hd :: l')) :
    n = hd ∧ ∃ k, entries.get? hd = some (.vacant k) ∧ FreeChain entries k l' := by
  cases h with
  | cons hget hch => exact ⟨rfl, _, hget, hch⟩

/-- From a well-formed slab, `insert` succeeds, returns a previously dead
slot, stores the order there, leaves every other slot alone, and keeps the
slab well formed. -/
theorem slabInsert_spec {s : Slab} (hwf : SlabWF s) (o : Order) :
    ∃ idx s', slabInsert s o = some (idx, s') ∧
      slabGet s idx = none ∧
      slabGet s' idx = some o ∧
      (∀ j, j ≠ idx → slabGet s' j = slabGet s j) ∧
      SlabWF s' := by
  obtain ⟨l, hch, hnd, hcov⟩ := hwf
  by_cases hn : s.nxt = s.entries.length
  · -- push at the end
    have hl : l = [] := by
      rw [hn] at hch
      exact freeChain_len_nil hch
    subst hl
    refine ⟨s.nxt, ⟨s.entries ++ [.occupied o], s.nxt + 1⟩, ?_, ?_, ?_, ?_, ?_⟩
    · unfold slabInsert
      rw [if_pos hn]
    · unfold slabGet
      rw [hn, List.get?_eq_getElem?]
      simp
    · unfold slabGet
      simp only
      rw [hn, List.get?_eq_getElem?]
      simp
    · intro j hj
      unfold slabGet
      simp only
      by_cases hjl : j < s.entries.length
      · rw [List.get?_eq_getElem?, List.get?_eq_getElem?,
          List.getElem?_append_left hjl]
      · have hj2 : s.entries.length < j := by omega
        rw [List.get?_eq_getElem?, List.get?_eq_getElem?]
        rw [List.getElem?_eq_none (by simp; omega),
          List.getElem?_eq_none (by omega)]
    · refine ⟨[], ?_, List.nodup_nil, ?_⟩
      · have : (s.entries ++ [SlabEntry.occupied o]).length = s.nxt + 1 := by
          simp [hn]
        rw [← this]
        exact FreeChain.nil
      · intro j k hjk
        exfalso
        by_cases hjl : j < s.entries.length
        · rw [List.get?_eq_getElem?, List.getElem?_append_left hjl,
            ← List.get?_eq_getElem?] at hjk
          have := hcov j k hjk
          simp at this
        · by_cases hje : j = s.entries.length
          · subst hje
            rw [List.get?_eq_getElem?] at hjk
            simp at hjk
          · rw [List.get?_eq_getElem?, List.getElem?_eq_none (by simp; omega)] at hjk
            simp at hjk
  · -- reuse the free-list head
    rcases hl : l with _ | ⟨hd, l'⟩
    · rw [hl] at hch
      exact absurd (freeChain_nil_inv hch) hn
    · rw [hl] at hch hnd
      obtain ⟨heq, n, hget, hch'⟩ := freeChain_cons_inv hch
      subst heq
      · have hlt : s.nxt < s.entries.length := (List.get?_eq_some.mp hget).1
        refine ⟨s.nxt, ⟨s.entries.set s.nxt (.occupied o), n⟩, ?_, ?_, ?_, ?_, ?_⟩
        · unfold slabInsert
          rw [if_neg hn, hget]
        · unfold slabGet
          rw [hget]
        · unfold slabGet
          simp only
          rw [List.get?_eq_getElem?, List.getElem?_set_eq hlt]
        · intro j hj
          unfold slabGet
          simp only
          rw [List.get?_eq_getElem?, List.getElem?_set_ne (Ne.symm hj),
            ← List.get?_eq_getElem?]
        · have hni : s.nxt ∉ l' := (List.nodup_cons.mp hnd).1
          refine ⟨l', freeChain_set_out hch' s.nxt _ hni, (List.nodup_cons.mp hnd).2, ?_⟩
          intro j k hjk
          by_cases hji : j = s.nxt
          · exfalso
            rw [hji] at hjk
            simp only at hjk
            rw [List.get?_eq_getElem?, List.getElem?_set_eq hlt] at hjk
            simp at hjk
          · simp only at hjk
            rw [List.get?_eq_getElem?, List.getElem?_set_ne (Ne.symm hji),
              ← List.get?_eq_getElem?] at hjk
            have := hcov j k hjk
            rw [hl] at this
            rcases List.mem_cons.mp this with h1 | h1
            · exact absurd h1 hji
            · exact h1

end VelocityDex

namespace VelocityDex

/-! ### Store evolution through `fillQueue` -/

/-- Slots outside the consumed queue are untouched. -/
theorem fillQueue_store_outside (user_id order_id bp : Nat)
    (qty : Nat) (q : List Nat) (store : Slab) (ev : List EngineEvent)
    {qty' : Nat} {q' : List Nat} {store' : Slab} {ev' : List EngineEvent}
    (h : fillQueue user_id order_id bp qty q store ev = some (qty', q', store', ev')) :
    ∀ j, j ∉ q → slabGet store' j = slabGet store j := by
  induction qty, q, store, ev using fillQueue.induct user_id order_id bp
    generalizing qty' q' store' ev' with
  | case1 qty store events =>
    rw [fillQueue_nil] at h
    simp only [Option.some.injEq, Prod.mk.injEq] at h
    obtain ⟨h1, h2, h3, h4⟩ := h
    subst h3
    exact fun j _ => rfl
  | case2 qty i rest store events hnone =>
    rw [fillQueue_cons_dead _ _ _ _ _ _ _ _ hnone] at h
    simp at h
  | case3 qty i rest store events maker hget huser ih =>
    rw [fillQueue_cons_stp _ _ _ _ _ _ _ _ _ hget huser] at h
    intro j hj
    have hji : j ≠ i := fun he => hj (he ▸ List.mem_cons_self i rest)
    rw [ih h j (fun hm => hj (List.mem_cons_of_mem _ hm)),
      slabGet_slabRemove_ne hji]
  | case4 qty i rest store events maker hget huser _tq _qn =>
    rename_i hm hq
    rw [fillQueue_cons_full_done _ _ _ _ _ _ _ _ _ hget huser hm hq] at h
    simp only [Option.some.injEq, Prod.mk.injEq] at h
    obtain ⟨h1, h2, h3, h4⟩ := h
    subst h3
    intro j hj
    have hji : j ≠ i := fun he => hj (he ▸ List.mem_cons_self i rest)
    exact slabGet_slabRemove_ne hji
  | case5 qty i rest store events maker hget huser _tq _ev _qn =>
    rename_i hm hq ih
    rw [fillQueue_cons_full_go _ _ _ _ _ _ _ _ _ hget huser hm hq] at h
    intro j hj
    have hji : j ≠ i := fun he => hj (he ▸ List.mem_cons_self i rest)
    rw [ih h j (fun hmem => hj (List.mem_cons_of_mem _ hmem)),
      slabGet_slabRemove_ne hji]
  | case6 qty i rest store events maker hget huser _tq =>
    rename_i hm
    rw [fillQueue_cons_partfill _ _ _ _ _ _ _ _ _ hget huser hm] at h
    simp only [Option.some.injEq, Prod.mk.injEq] at h
    obtain ⟨h1, h2, h3, h4⟩ := h
    subst h3
    intro j hj
    have hji : j ≠ i := fun he => hj (he ▸ List.mem_cons_self i rest)
    exact slabGet_slabSet_ne _ hji

/-- The surviving queue is a tail of the original queue. -/
theorem fillQueue_queue_suffix (user_id order_id bp : Nat)
    (qty : Nat) (q : List Nat) (store : Slab) (ev : List EngineEvent)
    {qty' : Nat} {q' : List Nat} {store' : Slab} {ev' : List EngineEvent}
    (h : fillQueue user_id order_id bp qty q store ev = some (qty', q', store', ev')) :
    ∃ k, q' = q.drop k := by
  induction qty, q, store, ev using fillQueue.induct user_id order_id bp
    generalizing qty' q' store' ev' with
  | case1 qty store events =>
    rw [fillQueue_nil] at h
    simp only [Option.some.injEq, Prod.mk.injEq] at h
    exact ⟨0, h.2.1.symm⟩
  | case2 qty i rest store events hnone =>
    rw [fillQueue_cons_dead _ _ _ _ _ _ _ _ hnone] at h
    simp at h
  | case3 qty i rest store events maker hget huser ih =>
    rw [fillQueue_cons_stp _ _ _ _ _ _ _ _ _ hget huser] at h
    obtain ⟨k, hk⟩ := ih h
    exact ⟨k + 1, by simpa using hk⟩
  | case4 qty i rest store events maker hget huser _tq _qn =>
    rename_i hm hq
    rw [fillQueue_cons_full_done _ _ _ _ _ _ _ _ _ hget huser hm hq] at h
    simp only [Option.some.injEq, Prod.mk.injEq] at h
    exact ⟨1, by simpa using h.2.1.symm⟩
  | case5 qty i rest store events maker hget huser _tq _ev _qn =>
    rename_i hm hq ih
    rw [fillQueue_cons_full_go _ _ _ _ _ _ _ _ _ hget huser hm hq] at h
    obtain ⟨k, hk⟩ := ih h
    exact ⟨k + 1, by simpa using hk⟩
  | case6 qty i rest store events maker hget huser _tq =>
    rename_i hm
    rw [fillQueue_cons_partfill _ _ _ _ _ _ _ _ _ hget huser hm] at h
    simp only [Option.some.injEq, Prod.mk.injEq] at h
    exact ⟨0, h.2.1.symm⟩

/-- Entries of the surviving queue still point at live orders with the
level's side and price. -/
theorem fillQueue_queue_live (user_id order_id bp : Nat) (sd : Side)
    (qty : Nat) (q : List Nat) (store : Slab) (ev : List EngineEvent)
    {qty' : Nat} {q' : List Nat} {store' : Slab} {ev' : List EngineEvent}
    (h : fillQueue user_id order_id bp qty q store ev = some (qty', q', store', ev'))
    (hnd : q.Nodup)
    (hocc : ∀ i ∈ q, ∃ o, slabGet store i = some o ∧ o.side = sd ∧ o.price = bp) :
    ∀ j ∈ q', ∃ o, slabGet store' j = some o ∧ o.side = sd ∧ o.price = bp := by
  induction qty, q, store, ev using fillQueue.induct user_id order_id bp
    generalizing qty' q' store' ev' with
  | case1 qty store events =>
    rw [fillQueue_nil] at h
    simp only [Option.some.injEq, Prod.mk.injEq] at h
    obtain ⟨h1, h2, h3, h4⟩ := h
    subst h2; subst h3
    intro j hj
    simp at hj
  | case2 qty i rest store events hnone =>
    rw [fillQueue_cons_dead _ _ _ _ _ _ _ _ hnone] at h
    simp at h
  | case3 qty i rest store events maker hget huser ih =>
    rw [fillQueue_cons_stp _ _ _ _ _ _ _ _ _ hget huser] at h
    have hni : i ∉ rest := (List.nodup_cons.mp hnd).1
    exact ih h (List.nodup_cons.mp hnd).2 (fun j hj => by
      rw [slabGet_slabRemove_ne (by intro hji; exact hni (hji ▸ hj))]
      exact hocc j (by simp [hj]))
  | case4 qty i rest store events maker hget huser _tq _qn =>
    rename_i hm hq
    rw [fillQueue_cons_full_done _ _ _ _ _ _ _ _ _ hget huser hm hq] at h
    simp only [Option.some.injEq, Prod.mk.injEq] at h
    obtain ⟨h1, h2, h3, h4⟩ := h
    subst h2; subst h3
    have hni : i ∉ rest := (List.nodup_cons.mp hnd).1
    intro j hj
    rw [slabGet_slabRemove_ne (by intro hji; exact hni (hji ▸ hj))]
    exact hocc j (by simp [hj])
  | case5 qty i rest store events maker hget huser _tq _ev _qn =>
    rename_i hm hq ih
    rw [fillQueue_cons_full_go _ _ _ _ _ _ _ _ _ hget huser hm hq] at h
    have hni : i ∉ rest := (List.nodup_cons.mp hnd).1
    exact ih h (List.nodup_cons.mp hnd).2 (fun j hj => by
      rw [slabGet_slabRemove_ne (by intro hji; exact hni (hji ▸ hj))]
      exact hocc j (by simp [hj]))
  | case6 qty i rest store events maker hget huser _tq =>
    rename_i hm
    rw [fillQueue_cons_partfill _ _ _ _ _ _ _ _ _ hget huser hm] at h
    simp only [Option.some.injEq, Prod.mk.injEq] at h
    obtain ⟨h1, h2, h3, h4⟩ := h
    subst h2; subst h3
    have hni : i ∉ rest := (List.nodup_cons.mp hnd).1
    intro j hj
    rcases List.mem_cons.mp hj with h1 | h1
    · subst h1
      obtain ⟨o, ho, hos, hop⟩ := hocc j (by simp)
      rw [ho] at hget
      simp only [Option.some.injEq] at hget
      subst hget
      exact ⟨_, slabGet_slabSet_self ho _, hos, hop⟩
    · rw [slabGet_slabSet_ne _ (by intro hji; exact hni (hji ▸ h1))]
      exact hocc j (by simp [h1])

/-- `fillQueue` keeps the slab well formed. -/
theorem fillQueue_slabWF (user_id order_id bp : Nat)
    (qty : Nat) (q : List Nat) (store : Slab) (ev : List EngineEvent)
    {qty' : Nat} {q' : List Nat} {store' : Slab} {ev' : List EngineEvent}
    (h : fillQueue user_id order_id bp qty q store ev = some (qty', q', store', ev'))
    (hwf : SlabWF store) : SlabWF store' := by
  induction qty, q, store, ev using fillQueue.induct user_id order_id bp
    generalizing qty' q' store' ev' with
  | case1 qty store events =>
    rw [fillQueue_nil] at h
    simp only [Option.some.injEq, Prod.mk.injEq] at h
    obtain ⟨h1, h2, h3, h4⟩ := h
    subst h3
    exact hwf
  | case2 qty i rest store events hnone =>
    rw [fillQueue_cons_dead _ _ _ _ _ _ _ _ hnone] at h
    simp at h
  | case3 qty i rest store events maker hget huser ih =>
    rw [fillQueue_cons_stp _ _ _ _ _ _ _ _ _ hget huser] at h
    exact ih h (slabWF_slabRemove hwf i)
  | case4 qty i rest store events maker hget huser _tq _qn =>
    rename_i hm hq
    rw [fillQueue_cons_full_done _ _ _ _ _ _ _ _ _ hget huser hm hq] at h
    simp only [Option.some.injEq, Prod.mk.injEq] at h
    obtain ⟨h1, h2, h3, h4⟩ := h
    subst h3
    exact slabWF_slabRemove hwf i
  | case5 qty i rest store events maker hget huser _tq _ev _qn =>
    rename_i hm hq ih
    rw [fillQueue_cons_full_go _ _ _ _ _ _ _ _ _ hget huser hm hq] at h
    exact ih h (slabWF_slabRemove hwf i)
  | case6 qty i rest store events maker hget huser _tq =>
    rename_i hm
    rw [fillQueue_cons_partfill _ _ _ _ _ _ _ _ _ hget huser hm] at h
    simp only [Option.some.injEq, Prod.mk.injEq] at h
    obtain ⟨h1, h2, h3, h4⟩ := h
    subst h3
    exact slabWF_slabSet hget hwf _

end VelocityDex

namespace VelocityDex

/-! ### Book coherence -/

/-- A well-formed price-level queue: duplicate-free, and every slot holds a
live order of the level's side and price. -/
def QueueOK (store : Slab) (sd : Side) (p : Nat) (q : List Nat) : Prop :=
  q.Nodup ∧ ∀ i ∈ q, ∃ o, slabGet store i = some o ∧ o.side = sd ∧ o.price = p

/-- A well-formed side map: keys strictly ascending, every level's queue
well formed. -/
def MapOK (store : Slab) (sd : Side) (m : PriceMap) : Prop :=
  List.Pairwise (· < ·) (m.map Prod.fst) ∧ ∀ e ∈ m, QueueOK store sd e.1 e.2

/-- The coherence invariant the engine maintains on the two side maps and
the slab (the order index is deliberately absent: the code does not keep it
coherent, see the C1/C2 theorems). -/
def Cohere (b : OrderBook) : Prop :=
  MapOK b.order_store .bid b.bids ∧ MapOK b.order_store .ask b.asks ∧
    SlabWF b.order_store

/-- The book is uncrossed: every resting bid price is strictly below every
resting ask price. -/
def Uncrossed (b : OrderBook) : Prop :=
  ∀ eb ∈ b.bids, ∀ ea ∈ b.asks, eb.1 < ea.1

/-- Books reachable from `OrderBook::new()` by completed
`place_limit_order` / `cancel_order` calls. -/
inductive Reachable : OrderBook → Prop where
  | new : Reachable OrderBook.new
  | place {b : OrderBook} {oid uid p q : Nat} {sd : Side}
      {ev : List EngineEvent} {b' : OrderBook} : Reachable b →
      place_limit_order b oid uid sd p q = some (ev, b') → Reachable b'
  | cancel {b : OrderBook} {oid uid : Nat} {ev : List EngineEvent}
      {b' : OrderBook} : Reachable b →
      cancel_order b oid uid = (ev, b') → Reachable b'

/-- The own-side map the remainder rests on. -/
def ownMap (side : Side) (b : OrderBook) : PriceMap :=
  match side with
  | .bid => b.bids
  | .ask => b.asks

theorem queueOK_transfer {store store' : Slab} {sd : Side} {p : Nat}
    {q0 q : List Nat} (hq0 : QueueOK store sd p q0)
    (hdisj : ∀ j ∈ q0, j ∉ q)
    (hout : ∀ j, j ∉ q → slabGet store' j = slabGet store j) :
    QueueOK store' sd p q0 := by
  refine ⟨hq0.1, fun i hi => ?_⟩
  rw [hout i (hdisj i hi)]
  exact hq0.2 i hi

theorem level_slots_disjoint {store : Slab} {sd sd' : Side} {p p' : Nat}
    {q q' : List Nat} (hq : QueueOK store sd p q) (hq' : QueueOK store sd' p' q')
    (hne : sd ≠ sd' ∨ p ≠ p') : ∀ j ∈ q', j ∉ q := by
  intro j hj' hj
  obtain ⟨o, ho, hos, hop⟩ := hq.2 j hj
  obtain ⟨o', ho', hos', hop'⟩ := hq'.2 j hj'
  rw [ho] at ho'
  simp only [Option.some.injEq] at ho'
  subst ho'
  rcases hne with h | h
  · exact h (hos ▸ hos' ▸ rfl)
  · exact h (hop ▸ hop' ▸ rfl)

theorem pmSet_keys (m : PriceMap) (p : Nat) (q : List Nat) :
    (pmSet m p q).map Prod.fst = m.map Prod.fst := by
  unfold pmSet
  induction m with
  | nil => rfl
  | cons e rest ih =>
    by_cases hp : e.1 = p
    · simp [hp, ih]
    · simp [hp, ih]

theorem pmErase_sublist (m : PriceMap) (p : Nat) : (pmErase m p).Sublist m :=
  List.filter_sublist m

theorem pmErase_pairwise {m : PriceMap} (p : Nat)
    (h : List.Pairwise (· < ·) (m.map Prod.fst)) :
    List.Pairwise (· < ·) ((pmErase m p).map Prod.fst) :=
  List.Pairwise.sublist (List.Sublist.map _ (pmErase_sublist m p)) h

theorem pmErase_length_lt {m : PriceMap} {p : Nat} {q : List Nat}
    (h : (p, q) ∈ m) : (pmErase m p).length < m.length := by
  unfold pmErase
  exact List.length_filter_lt_length_iff_exists.mpr ⟨(p, q), h, by simp⟩

/-- With ascending keys, the head level has the minimal price. -/
theorem pairwise_head_min {m : PriceMap} {e : Nat × List Nat}
    (hs : List.Pairwise (· < ·) (m.map Prod.fst)) (hh : m.head? = some e) :
    ∀ e' ∈ m, e' = e ∨ e.1 < e'.1 := by
  cases m with
  | nil => simp at hh
  | cons hd rest =>
    simp only [List.head?_cons, Option.some.injEq] at hh
    subst hh
    intro e' he'
    rcases List.mem_cons.mp he' with h1 | h1
    · exact Or.inl h1
    · right
      simp only [List.map_cons, List.pairwise_cons] at hs
      exact hs.1 e'.1 (List.mem_map.mpr ⟨e', h1, rfl⟩)

/-- With ascending keys, the last level has the maximal price. -/
theorem pairwise_last_max {m : PriceMap} {e : Nat × List Nat}
    (hs : List.Pairwise (· < ·) (m.map Prod.fst)) (hh : m.getLast? = some e) :
    ∀ e' ∈ m, e' = e ∨ e'.1 < e.1 := by
  induction m with
  | nil => simp at hh
  | cons hd rest ih =>
    cases rest with
    | nil =>
      simp only [List.getLast?_singleton, Option.some.injEq] at hh
      subst hh
      intro e' he'
      simp only [List.mem_singleton] at he'
      exact Or.inl he'
    | cons hd2 rest2 =>
      rw [List.getLast?_cons_cons] at hh
      simp only [List.map_cons, List.pairwise_cons] at hs
      intro e' he'
      rcases List.mem_cons.mp he' with h1 | h1
      · right
        subst h1
        have hmem : e ∈ hd2 :: rest2 := List.mem_of_mem_getLast? (by simp [hh])
        exact hs.1 e.1 (List.mem_map.mpr ⟨e, hmem, rfl⟩)
      · exact ih (by simp only [List.map_cons, List.pairwise_cons]; exact
          ⟨hs.2.1, hs.2.2⟩) hh e' h1

end VelocityDex

namespace VelocityDex

theorem Side.opposite_ne (sd : Side) : sd.opposite ≠ sd := by
  cases sd <;> simp [Side.opposite]

theorem matchStepBook_own (side : Side) (b : OrderBook) (bp : Nat)
    (q' : List Nat) (store' : Slab) :
    ownMap side (matchStepBook side b bp q' store') = ownMap side b := by
  by_cases hq : q' = [] <;> cases side <;> simp [matchStepBook, ownMap, hq]

theorem matchStepBook_index (side : Side) (b : OrderBook) (bp : Nat)
    (q' : List Nat) (store' : Slab) :
    (matchStepBook side b bp q' store').order_index = b.order_index := by
  by_cases hq : q' = [] <;> cases side <;> simp [matchStepBook, hq]

theorem pmErase_mem_ne {m : PriceMap} {p : Nat} {e : Nat × List Nat}
    (h : e ∈ pmErase m p) : e.1 ≠ p := by
  unfold pmErase at h
  have := List.of_mem_filter h
  simpa using this

end VelocityDex

namespace VelocityDex

/-- The matching loop, run with the fuel `place_limit_order` supplies,
completes and preserves coherence: the own side and the order index are
untouched, the opposite side keeps only (suffixes of) its original levels,
and when taker quantity remains the new top of the opposite book is not
matchable. -/
theorem matchLoop_preserve (side : Side) (order_id user_id price : Nat) :
    ∀ (fuel : Nat) (qty : Nat) (b : OrderBook) (ev : List EngineEvent),
      (oppMap side b).length + 1 ≤ fuel →
      MapOK b.order_store side.opposite (oppMap side b) →
      MapOK b.order_store side (ownMap side b) →
      SlabWF b.order_store →
      ∃ qty1 b1 ev1,
        matchLoop side order_id user_id price fuel qty b ev = some (qty1, b1, ev1) ∧
        ownMap side b1 = ownMap side b ∧
        b1.order_index = b.order_index ∧
        MapOK b1.order_store side.opposite (oppMap side b1) ∧
        MapOK b1.order_store side (ownMap side b1) ∧
        SlabWF b1.order_store ∧
        (∀ e ∈ oppMap side b1, e.1 ∈ (oppMap side b).map Prod.fst) ∧
        (qty1 ≠ 0 → bestOpp side b1 = none ∨
          ∃ bp q1, bestOpp side b1 = some (bp, q1) ∧
            isMatchable side price bp = false) := by
  intro fuel
  induction fuel with
  | zero =>
    intro qty b ev hfuel
    omega
  | succ fuel ih =>
    intro qty b ev hfuel hopp hown hwf
    by_cases hq : qty = 0
    · subst hq
      exact ⟨0, b, ev, matchLoop_zero_qty _ _ _ _ _ _ _, rfl, rfl, hopp, hown,
        hwf, fun e he => List.mem_map.mpr ⟨e, he, rfl⟩, fun hc => absurd rfl hc⟩
    · rcases hbest : bestOpp side b with _ | ⟨bp, q⟩
      · exact ⟨qty, b, ev, matchLoop_no_best _ _ _ _ _ _ _ _ hq hbest, rfl, rfl,
          hopp, hown, hwf, fun e he => List.mem_map.mpr ⟨e, he, rfl⟩,
          fun _ => Or.inl hbest⟩
      · rcases hmat : isMatchable side price bp with _ | _
        · exact ⟨qty, b, ev,
            matchLoop_not_matchable _ _ _ _ _ _ _ _ _ _ hq hbest hmat, rfl, rfl,
            hopp, hown, hwf, fun e he => List.mem_map.mpr ⟨e, he, rfl⟩,
            fun _ => Or.inr ⟨bp, q, hbest, hmat⟩⟩
        · have hlev : (bp, q) ∈ oppMap side b := bestOpp_mem hbest
          have hqOK : QueueOK b.order_store side.opposite bp q := hopp.2 _ hlev
          have hocc : ∀ i ∈ q, ∃ o, slabGet b.order_store i = some o :=
            fun i hi => (hqOK.2 i hi).imp (fun o ho => ho.1)
          have hsome := fillQueue_isSome user_id order_id bp qty q
            b.order_store ev hocc hqOK.1
          rw [Option.isSome_iff_exists] at hsome
          obtain ⟨⟨qm, qq, st, evm⟩, hf⟩ := hsome
          have hout := fillQueue_store_outside _ _ _ _ _ _ _ hf
          have hwf2 : SlabWF st := fillQueue_slabWF _ _ _ _ _ _ _ hf hwf
          have hqq_nd : qq.Nodup := by
            obtain ⟨k, hk⟩ := fillQueue_queue_suffix _ _ _ _ _ _ _ hf
            exact hk ▸ List.Nodup.sublist (List.drop_sublist k q) hqOK.1
          have hqqOK : QueueOK st side.opposite bp qq :=
            ⟨hqq_nd, fillQueue_queue_live _ _ _ side.opposite _ _ _ _ hf
              hqOK.1 hqOK.2⟩
          have hother : ∀ e ∈ oppMap side b, e.1 ≠ bp →
              QueueOK st side.opposite e.1 e.2 := fun e he hne =>
            queueOK_transfer (hopp.2 e he)
              (level_slots_disjoint hqOK (hopp.2 e he) (Or.inr (fun h => hne h.symm)))
              hout
          have hownlev : ∀ e ∈ ownMap side b, QueueOK st side e.1 e.2 :=
            fun e he =>
              queueOK_transfer (hown.2 e he)
                (level_slots_disjoint hqOK (hown.2 e he)
                  (Or.inl (Side.opposite_ne side)))
                hout
          have hb2store := matchStepBook_store side b bp qq st
          have hb2own := matchStepBook_own side b bp qq st
          have hb2idx := matchStepBook_index side b bp qq st
          have hb2opp := matchStepBook_opp side b bp qq st
          have hoppOK2 : MapOK (matchStepBook side b bp qq st).order_store
              side.opposite (oppMap side (matchStepBook side b bp qq st)) := by
            rw [hb2store, hb2opp]
            by_cases hqq : qq = []
            · rw [if_pos hqq]
              refine ⟨pmErase_pairwise bp hopp.1, fun e he => ?_⟩
              exact hother e (pmErase_subset he) (pmErase_mem_ne he)
            · rw [if_neg hqq]
              constructor
              · rw [pmSet_keys]
                exact hopp.1
              · intro e he
                rcases pmSet_mem he with ⟨h1, h2⟩ | ⟨h1, h2⟩
                · exact hother e h1 h2
                · subst h1
                  exact hqqOK
          have hownOK2 : MapOK (matchStepBook side b bp qq st).order_store side
              (ownMap side (matchStepBook side b bp qq st)) := by
            rw [hb2store, hb2own]
            exact ⟨hown.1, hownlev⟩
          have hwf2' : SlabWF (matchStepBook side b bp qq st).order_store := by
            rw [hb2store]
            exact hwf2
          have hkeys2 : ∀ e ∈ oppMap side (matchStepBook side b bp qq st),
              e.1 ∈ (oppMap side b).map Prod.fst := by
            rw [hb2opp]
            by_cases hqq : qq = []
            · rw [if_pos hqq]
              intro e he
              exact List.mem_map.mpr ⟨e, pmErase_subset he, rfl⟩
            · rw [if_neg hqq]
              intro e he
              rcases pmSet_mem he with ⟨h1, _⟩ | ⟨h1, ⟨q0, hq0⟩⟩
              · exact List.mem_map.mpr ⟨e, h1, rfl⟩
              · subst h1
                exact List.mem_map.mpr ⟨(bp, q0), hq0, rfl⟩
          by_cases hqqe : qq = []
          · -- the consumed level is dropped: strictly fewer levels, recurse
            have hlen2 : (oppMap side (matchStepBook side b bp qq st)).length + 1 ≤ fuel := by
              rw [hb2opp, if_pos hqqe]
              have := pmErase_length_lt hlev
              omega
            obtain ⟨qty1, b1, ev1, hrec, hown1, hidx1, hoppOK1, hownOK1, hwf1,
              hkeys1, hlast1⟩ := ih qm (matchStepBook side b bp qq st) evm
              hlen2 hoppOK2 hownOK2 hwf2'
            refine ⟨qty1, b1, ev1, ?_, hown1.trans hb2own, hidx1.trans hb2idx,
              hoppOK1, hownOK1, hwf1, ?_, hlast1⟩
            · rw [matchLoop_step _ _ _ _ _ _ _ _ _ _ _ _ _ _ hq hbest hmat hf]
              exact hrec
            · intro e he
              obtain ⟨e2, he2, heq⟩ := List.mem_map.mp (hkeys1 e he)
              rw [← heq]
              exact hkeys2 e2 he2
          · -- the consumed level survives: the taker must be exhausted
            have hqm : qm = 0 := by
              by_contra hne
              exact hqqe (fillQueue_pos_empty _ _ _ _ _ _ _ hf hne)
            subst hqm
            have hfge : 1 ≤ fuel := by
              have : 1 ≤ (oppMap side b).length :=
                List.length_pos.mpr (List.ne_nil_of_mem hlev)
              omega
            obtain ⟨f', rfl⟩ : ∃ f', fuel = f' + 1 := ⟨fuel - 1, by omega⟩
            refine ⟨0, matchStepBook side b bp qq st, evm, ?_, hb2own, hb2idx,
              hoppOK2, hownOK2, hwf2', hkeys2, fun hc => absurd rfl hc⟩
            rw [matchLoop_step _ _ _ _ _ _ _ _ _ _ _ _ _ _ hq hbest hmat hf,
              matchLoop_zero_qty]

end VelocityDex

namespace VelocityDex

/-! ### `pmPushBack` lemmas -/

theorem pmPushBack_keys_sub (m : PriceMap) (p i : Nat) :
    ∀ a ∈ (pmPushBack m p i).map Prod.fst, a ∈ m.map Prod.fst ∨ a = p := by
  induction m with
  | nil =>
    intro a ha
    simp [pmPushBack] at ha
    exact Or.inr ha
  | cons e rest ih =>
    intro a ha
    unfold pmPushBack at ha
    by_cases h1 : p < e.1
    · rw [if_pos h1] at ha
      simp only [List.map_cons, List.mem_cons] at ha
      rcases ha with h | h | h
      · exact Or.inr h
      · exact Or.inl (by simp only [List.map_cons, List.mem_cons]; exact Or.inl h)
      · exact Or.inl (by simp only [List.map_cons, List.mem_cons]; exact Or.inr h)
    · rw [if_neg h1] at ha
      by_cases h2 : p = e.1
      · rw [if_pos h2] at ha
        simp only [List.map_cons, List.mem_cons] at ha
        rcases ha with h | h
        · exact Or.inl (by simp only [List.map_cons, List.mem_cons]; exact Or.inl h)
        · exact Or.inl (by simp only [List.map_cons, List.mem_cons]; exact Or.inr h)
      · rw [if_neg h2] at ha
        simp only [List.map_cons, List.mem_cons] at ha
        rcases ha with h | h
        · exact Or.inl (by simp only [List.map_cons, List.mem_cons]; exact Or.inl h)
        · rcases ih a h with h3 | h3
          · exact Or.inl (by simp only [List.map_cons, List.mem_cons]; exact Or.inr h3)
          · exact Or.inr h3

theorem pmPushBack_pairwise {m : PriceMap} (p i : Nat)
    (h : List.Pairwise (· < ·) (m.map Prod.fst)) :
    List.Pairwise (· < ·) ((pmPushBack m p i).map Prod.fst) := by
  induction m with
  | nil => simp [pmPushBack]
  | cons e rest ih =>
    simp only [List.map_cons, List.pairwise_cons] at h
    unfold pmPushBack
    by_cases h1 : p < e.1
    · rw [if_pos h1]
      simp only [List.map_cons, List.pairwise_cons]
      refine ⟨?_, h.1, h.2⟩
      intro a ha
      simp only [List.map_cons, List.mem_cons] at ha
      rcases ha with hae | hae
      · omega
      · have := h.1 a hae
        omega
    · rw [if_neg h1]
      by_cases h2 : p = e.1
      · rw [if_pos h2]
        simp only [List.map_cons, List.pairwise_cons]
        exact ⟨h.1, h.2⟩
      · rw [if_neg h2]
        simp only [List.map_cons, List.pairwise_cons]
        refine ⟨?_, ih h.2⟩
        intro a ha
        rcases pmPushBack_keys_sub rest p i a ha with h3 | h3
        · exact h.1 a h3
        · subst h3
          omega

theorem pmPushBack_mem {m : PriceMap} {p i : Nat} {e : Nat × List Nat}
    (hs : List.Pairwise (· < ·) (m.map Prod.fst)) (h : e ∈ pmPushBack m p i) :
    (e ∈ m ∧ e.1 ≠ p) ∨ (∃ q0, (p, q0) ∈ m ∧ e = (p, q0 ++ [i])) ∨
      e = (p, [i]) := by
  induction m with
  | nil =>
    simp [pmPushBack] at h
    exact Or.inr (Or.inr (by simp [h]))
  | cons e0 rest ih =>
    simp only [List.map_cons, List.pairwise_cons] at hs
    unfold pmPushBack at h
    by_cases h1 : p < e0.1
    · rw [if_pos h1] at h
      rcases List.mem_cons.mp h with h2 | h2
      · exact Or.inr (Or.inr h2)
      · rcases List.mem_cons.mp h2 with h3 | h3
        · subst h3
          exact Or.inl ⟨List.mem_cons_self _ _, by omega⟩
        · have hk : e0.1 < e.1 := hs.1 e.1 (List.mem_map.mpr ⟨e, h3, rfl⟩)
          exact Or.inl ⟨List.mem_cons_of_mem _ h3, by omega⟩
    · rw [if_neg h1] at h
      by_cases h2 : p = e0.1
      · rw [if_pos h2] at h
        rcases List.mem_cons.mp h with h3 | h3
        · subst h3
          refine Or.inr (Or.inl ⟨e0.2, ?_, ?_⟩)
          · rw [h2]
            simp
          · rw [h2]
        · have hk : e0.1 < e.1 := hs.1 e.1 (List.mem_map.mpr ⟨e, h3, rfl⟩)
          exact Or.inl ⟨List.mem_cons_of_mem _ h3, by omega⟩
      · rw [if_neg h2] at h
        rcases List.mem_cons.mp h with h3 | h3
        · subst h3
          exact Or.inl ⟨List.mem_cons_self _ _, fun hc => h2 hc.symm⟩
        · rcases ih hs.2 h3 with h4 | h4 | h4
          · exact Or.inl ⟨List.mem_cons_of_mem _ h4.1, h4.2⟩
          · obtain ⟨q0, hq0, he⟩ := h4
            exact Or.inr (Or.inl ⟨q0, List.mem_cons_of_mem _ hq0, he⟩)
          · exact Or.inr (Or.inr h4)

end VelocityDex

namespace VelocityDex

/-! ### Invariant preservation for `place_limit_order` -/

theorem cohere_own {b : OrderBook} (hco : Cohere b) (sd : Side) :
    MapOK b.order_store sd (ownMap sd b) := by
  cases sd
  · exact hco.1
  · exact hco.2.1

theorem cohere_opp {b : OrderBook} (hco : Cohere b) (sd : Side) :
    MapOK b.order_store sd.opposite (oppMap sd b) := by
  cases sd
  · exact hco.2.1
  · exact hco.1

theorem cohere_of {b : OrderBook} (sd : Side)
    (hown : MapOK b.order_store sd (ownMap sd b))
    (hopp : MapOK b.order_store sd.opposite (oppMap sd b))
    (hwf : SlabWF b.order_store) : Cohere b := by
  cases sd
  · exact ⟨hown, hopp, hwf⟩
  · exact ⟨hopp, hown, hwf⟩

theorem oppLen_eq (sd : Side) (b : OrderBook) :
    oppLen sd b = (oppMap sd b).length := by
  cases sd <;> rfl

theorem restBook_opp (sd : Side) (b1 : OrderBook) (oid idx price : Nat)
    (st : Slab) : oppMap sd (restBook sd b1 oid idx price st) = oppMap sd b1 := by
  cases sd <;> simp [restBook, oppMap]

theorem restBook_own (sd : Side) (b1 : OrderBook) (oid idx price : Nat)
    (st : Slab) :
    ownMap sd (restBook sd b1 oid idx price st) = pmPushBack (ownMap sd b1) price idx := by
  cases sd <;> simp [restBook, ownMap]

theorem restBook_store (sd : Side) (b1 : OrderBook) (oid idx price : Nat)
    (st : Slab) : (restBook sd b1 oid idx price st).order_store = st := by
  cases sd <;> simp [restBook]

/-- Uncrossedness transfers along a book whose own side is unchanged and
whose opposite side only lost levels. -/
theorem uncrossed_shrink {sd : Side} {b b1 : OrderBook} (hun : Uncrossed b)
    (hown : ownMap sd b1 = ownMap sd b)
    (hkeys : ∀ e ∈ oppMap sd b1, e.1 ∈ (oppMap sd b).map Prod.fst) :
    Uncrossed b1 := by
  cases sd
  · intro eb hb ea ha
    obtain ⟨ea0, ha0, hke⟩ := List.mem_map.mp (hkeys ea ha)
    rw [← hke]
    have hown2 : b1.bids = b.bids := hown
    rw [hown2] at hb
    exact hun eb hb ea0 ha0
  · intro eb hb ea ha
    obtain ⟨eb0, hb0, hke⟩ := List.mem_map.mp (hkeys eb hb)
    rw [← hke]
    have hown2 : b1.asks = b.asks := hown
    rw [hown2] at ha
    exact hun eb0 hb0 ea ha

theorem place_preserve {b : OrderBook} {order_id user_id : Nat} {sd : Side}
    {price quantity : Nat} {ev : List EngineEvent} {b' : OrderBook}
    (hco : Cohere b) (hun : Uncrossed b)
    (h : place_limit_order b order_id user_id sd price quantity = some (ev, b')) :
    Cohere b' ∧ Uncrossed b' := by
  rw [place_limit_order_eq] at h
  obtain ⟨qty1, b1, ev1, hml, hown1, hidx1, hoppOK1, hownOK1, hwf1, hkeys1,
    hlast1⟩ := matchLoop_preserve sd order_id user_id price
      (oppLen sd b + 1) quantity b []
      (by rw [oppLen_eq]) (cohere_opp hco sd) (cohere_own hco sd) hco.2.2
  rw [hml] at h
  dsimp only at h
  have hun1 : Uncrossed b1 := uncrossed_shrink hun hown1 hkeys1
  by_cases h1 : qty1 > 0
  · rw [if_pos h1] at h
    obtain ⟨idx, st2, hins, hdead, hlive, hsame, hwf2⟩ :=
      slabInsert_spec hwf1
        { id := order_id, user_id := user_id, price := price,
          quantity := qty1, side := sd, timestamp := 0 }
    rw [hins] at h
    dsimp only at h
    simp only [Option.some.injEq, Prod.mk.injEq] at h
    obtain ⟨hev, hb'⟩ := h
    subst hb'
    -- occupied slots of b1 are not idx
    have hne_idx : ∀ {j : Nat} {o : Order}, slabGet b1.order_store j = some o →
        j ≠ idx := by
      intro j o hj hji
      rw [hji, hdead] at hj
      simp at hj
    have hq_transfer : ∀ {sdl : Side} {pl : Nat} {ql : List Nat},
        QueueOK b1.order_store sdl pl ql → QueueOK st2 sdl pl ql := by
      intro sdl pl ql hq
      refine ⟨hq.1, fun j hj => ?_⟩
      obtain ⟨o, ho, hos, hop⟩ := hq.2 j hj
      rw [hsame j (hne_idx ho)]
      exact ⟨o, ho, hos, hop⟩
    constructor
    · -- coherence of the rested book
      apply cohere_of sd
      · rw [restBook_store, restBook_own]
        constructor
        · exact pmPushBack_pairwise _ _ hownOK1.1
        · intro e he
          rcases pmPushBack_mem hownOK1.1 he with ⟨hmem, _⟩ | ⟨q0, hq0, heq⟩ | heq
          · exact hq_transfer (hownOK1.2 e hmem)
          · subst heq
            have hq0OK := hownOK1.2 (price, q0) hq0
            refine ⟨?_, ?_⟩
            · rw [List.nodup_append]
              refine ⟨hq0OK.1, List.nodup_singleton idx, ?_⟩
              intro j hj
              simp only [List.mem_singleton]
              intro hji
              obtain ⟨o, ho, _, _⟩ := hq0OK.2 j hj
              exact hne_idx ho hji
            · intro j hj
              rcases List.mem_append.mp hj with hj1 | hj1
              · obtain ⟨o, ho, hos, hop⟩ := hq0OK.2 j hj1
                rw [hsame j (hne_idx ho)]
                exact ⟨o, ho, hos, hop⟩
              · simp only [List.mem_singleton] at hj1
                subst hj1
                exact ⟨_, hlive, rfl, rfl⟩
          · subst heq
            refine ⟨List.nodup_singleton idx, fun j hj => ?_⟩
            simp only [List.mem_singleton] at hj
            subst hj
            exact ⟨_, hlive, rfl, rfl⟩
      · rw [restBook_store, restBook_opp]
        exact ⟨hoppOK1.1, fun e he => hq_transfer (hoppOK1.2 e he)⟩
      · rw [restBook_store]
        exact hwf2
    · -- the rested book stays uncrossed
      cases sd
      · -- incoming bid rests on the bid side
        have hprice_ok : ∀ e ∈ b1.asks, price < e.1 := by
          intro e he
          rcases hlast1 (by omega) with hbn | ⟨bp, q1, hbs, hm⟩
          · exfalso
            simp only [bestOpp] at hbn
            rw [List.head?_eq_none_iff] at hbn
            rw [hbn] at he
            simp at he
          · simp only [isMatchable, decide_eq_false_iff_not, not_le] at hm
            have hmin := pairwise_head_min hoppOK1.1
              (by simpa [bestOpp] using hbs) e he
            rcases hmin with h2 | h2
            · rw [h2]
              exact hm
            · have h3 : bp < e.1 := by simpa using h2
              omega
        intro eb hb ea ha
        have hb2 : eb ∈ pmPushBack b1.bids price idx := by
          have hro := restBook_own Side.bid b1 order_id idx price st2
          have hro2 : (restBook Side.bid b1 order_id idx price st2).bids =
              pmPushBack b1.bids price idx := hro
          rw [hro2] at hb
          exact hb
        have ha2 : ea ∈ b1.asks := by
          have hro := restBook_opp Side.bid b1 order_id idx price st2
          have hro2 : (restBook Side.bid b1 order_id idx price st2).asks =
              b1.asks := hro
          rw [hro2] at ha
          exact ha
        rcases pmPushBack_mem hownOK1.1 hb2 with ⟨hmem, _⟩ | ⟨q0, hq0, heq⟩ | heq
        · exact hun1 eb hmem ea ha2
        · rw [heq]
          exact hprice_ok ea ha2
        · rw [heq]
          exact hprice_ok ea ha2
      · -- incoming ask rests on the ask side
        have hprice_ok : ∀ e ∈ b1.bids, e.1 < price := by
          intro e he
          rcases hlast1 (by omega) with hbn | ⟨bp, q1, hbs, hm⟩
          · exfalso
            simp only [bestOpp] at hbn
            rw [List.getLast?_eq_none_iff] at hbn
            rw [hbn] at he
            simp at he
          · simp only [isMatchable, ge_iff_le, decide_eq_false_iff_not,
              not_le] at hm
            have hmax := pairwise_last_max hoppOK1.1
              (by simpa [bestOpp] using hbs) e he
            rcases hmax with h2 | h2
            · rw [h2]
              exact hm
            · have h3 : e.1 < bp := by simpa using h2
              omega
        intro eb hb ea ha
        have ha2 : ea ∈ pmPushBack b1.asks price idx := by
          have hro := restBook_own Side.ask b1 order_id idx price st2
          have hro2 : (restBook Side.ask b1 order_id idx price st2).asks =
              pmPushBack b1.asks price idx := hro
          rw [hro2] at ha
          exact ha
        have hb2 : eb ∈ b1.bids := by
          have hro := restBook_opp Side.ask b1 order_id idx price st2
          have hro2 : (restBook Side.ask b1 order_id idx price st2).bids =
              b1.bids := hro
          rw [hro2] at hb
          exact hb
        rcases pmPushBack_mem hownOK1.1 ha2 with ⟨hmem, _⟩ | ⟨q0, hq0, heq⟩ | heq
        · exact hun1 eb hb2 ea hmem
        · rw [heq]
          exact hprice_ok eb hb2
        · rw [heq]
          exact hprice_ok eb hb2
  · rw [if_neg h1] at h
    simp only [Option.some.injEq, Prod.mk.injEq] at h
    obtain ⟨hev, hb'⟩ := h
    subst hb'
    exact ⟨cohere_of sd hownOK1 hoppOK1 hwf1, hun1⟩

end VelocityDex

namespace VelocityDex

/-! ### Invariant preservation for `cancel_order` -/

theorem pmGet_mem {m : PriceMap} {p : Nat} {q : List Nat}
    (h : pmGet m p = some q) : (p, q) ∈ m := by
  induction m with
  | nil => simp [pmGet] at h
  | cons e rest ih =>
    unfold pmGet at h
    by_cases hp : e.1 = p
    · rw [if_pos hp] at h
      simp only [Option.some.injEq] at h
      subst h
      rw [← hp]
      exact List.mem_cons_self _ _
    · rw [if_neg hp] at h
      exact List.mem_cons_of_mem _ (ih h)

theorem queueOK_remove_other {store : Slab} {internal : Nat} {order : Order}
    (hget : slabGet store internal = some order) {sd : Side} {p : Nat}
    {q : List Nat} (hq : QueueOK store sd p q)
    (hne : sd ≠ order.side ∨ p ≠ order.price) :
    QueueOK (slabRemove store internal) sd p q := by
  refine ⟨hq.1, fun j hj => ?_⟩
  obtain ⟨o, ho, hos, hop⟩ := hq.2 j hj
  have hjne : j ≠ internal := by
    intro hje
    subst hje
    rw [ho] at hget
    simp only [Option.some.injEq] at hget
    subst hget
    rcases hne with h1 | h1
    · exact h1 hos.symm |>.elim
    · exact h1 hop.symm |>.elim
  rw [slabGet_slabRemove_ne hjne]
  exact ⟨o, ho, hos, hop⟩

theorem queueOK_remove_filter {store : Slab} {internal : Nat} {sd : Side}
    {p : Nat} {q : List Nat} (hq : QueueOK store sd p q) :
    QueueOK (slabRemove store internal) sd p
      (q.filter (fun i => decide (i ≠ internal))) := by
  constructor
  · exact List.Nodup.filter _ hq.1
  · intro j hj
    have hj2 := List.mem_filter.mp hj
    have hjq : j ∈ q := hj2.1
    have hjne : j ≠ internal := by simpa using hj2.2
    obtain ⟨o, ho, hos, hop⟩ := hq.2 j hjq
    rw [slabGet_slabRemove_ne hjne]
    exact ⟨o, ho, hos, hop⟩

theorem pmGet_none {m : PriceMap} {p : Nat} (h : pmGet m p = none) :
    ∀ e ∈ m, e.1 ≠ p := by
  induction m with
  | nil => intro e he; simp at he
  | cons e0 rest ih =>
    unfold pmGet at h
    by_cases hp : e0.1 = p
    · rw [if_pos hp] at h
      simp at h
    · rw [if_neg hp] at h
      intro e he
      rcases List.mem_cons.mp he with h1 | h1
      · subst h1
        exact hp
      · exact ih h e h1

theorem pairwise_key_unique {m : PriceMap} {p : Nat} {q1 q2 : List Nat}
    (hs : List.Pairwise (· < ·) (m.map Prod.fst))
    (h1 : (p, q1) ∈ m) (h2 : (p, q2) ∈ m) : q1 = q2 := by
  induction m with
  | nil => simp at h1
  | cons e0 rest ih =>
    simp only [List.map_cons, List.pairwise_cons] at hs
    rcases List.mem_cons.mp h1 with ha | ha <;>
      rcases List.mem_cons.mp h2 with hb | hb
    · rw [← ha] at hb
      exact (congrArg Prod.snd hb).symm |>.trans rfl |>.symm |>.symm
    · exfalso
      have := hs.1 p (List.mem_map.mpr ⟨(p, q2), hb, rfl⟩)
      rw [← ha] at this
      simp at this
    · exfalso
      have := hs.1 p (List.mem_map.mpr ⟨(p, q1), ha, rfl⟩)
      rw [← hb] at this
      simp at this
    · exact ih hs.2 ha hb

theorem cancel_preserve {b : OrderBook} {order_id user_id : Nat}
    {ev : List EngineEvent} {b' : OrderBook}
    (hco : Cohere b) (hun : Uncrossed b)
    (h : cancel_order b order_id user_id = (ev, b')) :
    Cohere b' ∧ Uncrossed b' := by
  unfold cancel_order at h
  rcases hidx : idxLookup b.order_index order_id with _ | internal
  · rw [hidx] at h
    simp only [Prod.mk.injEq] at h
    rw [← h.2]
    exact ⟨hco, hun⟩
  · rw [hidx] at h
    dsimp only at h
    rcases hget : slabGet b.order_store internal with _ | order
    · rw [hget] at h
      simp only [Prod.mk.injEq] at h
      rw [← h.2]
      exact ⟨hco, hun⟩
    · rw [hget] at h
      dsimp only at h
      by_cases huser : order.user_id ≠ user_id
      · rw [if_pos huser] at h
        simp only [Prod.mk.injEq] at h
        rw [← h.2]
        exact ⟨hco, hun⟩
      · rw [if_neg huser] at h
        have hwf2 := slabWF_slabRemove hco.2.2 internal
        rcases hside : order.side with _ | _
        · -- cancelled order is a bid: only the bid side can change
          rw [hside] at h
          dsimp only at h
          rcases hq : pmGet b.bids order.price with _ | qq
          · rw [hq] at h
            dsimp only at h
            simp only [Prod.mk.injEq] at h
            rw [← h.2]
            refine ⟨⟨⟨hco.1.1, ?_⟩, ⟨hco.2.1.1, ?_⟩, hwf2⟩, hun⟩
            · exact fun e he => queueOK_remove_other hget (hco.1.2 e he)
                (Or.inr (fun hpe => pmGet_none hq e he (hpe.trans rfl)))
            · exact fun e he => queueOK_remove_other hget (hco.2.1.2 e he)
                (Or.inl (by rw [hside]; decide))
          · rw [hq] at h
            dsimp only at h
            have hqqOK : QueueOK b.order_store Side.bid order.price qq := by
              have := hco.1.2 _ (pmGet_mem hq)
              exact this
            by_cases hflt : qq.filter (fun i => decide (i ≠ internal)) = []
            · rw [if_pos hflt] at h
              simp only [Prod.mk.injEq] at h
              rw [← h.2]
              constructor
              · refine ⟨⟨pmErase_pairwise _ hco.1.1, ?_⟩, ⟨hco.2.1.1, ?_⟩, hwf2⟩
                · exact fun e he => queueOK_remove_other hget
                    (hco.1.2 e (pmErase_subset he))
                    (Or.inr (pmErase_mem_ne he))
                · exact fun e he => queueOK_remove_other hget (hco.2.1.2 e he)
                    (Or.inl (by rw [hside]; decide))
              · intro eb hb ea ha
                exact hun eb (pmErase_subset hb) ea ha
            · rw [if_neg hflt] at h
              simp only [Prod.mk.injEq] at h
              rw [← h.2]
              constructor
              · refine ⟨⟨?_, ?_⟩, ⟨hco.2.1.1, ?_⟩, hwf2⟩
                · rw [pmSet_keys]
                  exact hco.1.1
                · intro e he
                  rcases pmSet_mem he with ⟨h1, h2⟩ | ⟨h1, q0, hq0⟩
                  · exact queueOK_remove_other hget (hco.1.2 e h1) (Or.inr h2)
                  · subst h1
                    exact queueOK_remove_filter hqqOK
                · exact fun e he => queueOK_remove_other hget (hco.2.1.2 e he)
                    (Or.inl (by rw [hside]; decide))
              · intro eb hb ea ha
                rcases pmSet_mem hb with ⟨h1, _⟩ | ⟨h1, q0, hq0⟩
                · exact hun eb h1 ea ha
                · rw [h1]
                  exact hun (order.price, q0) hq0 ea ha
        · -- cancelled order is an ask: only the ask side can change
          rw [hside] at h
          dsimp only at h
          rcases hq : pmGet b.asks order.price with _ | qq
          · rw [hq] at h
            dsimp only at h
            simp only [Prod.mk.injEq] at h
            rw [← h.2]
            refine ⟨⟨⟨hco.1.1, ?_⟩, ⟨hco.2.1.1, ?_⟩, hwf2⟩, hun⟩
            · exact fun e he => queueOK_remove_other hget (hco.1.2 e he)
                (Or.inl (by rw [hside]; decide))
            · exact fun e he => queueOK_remove_other hget (hco.2.1.2 e he)
                (Or.inr (fun hpe => pmGet_none hq e he (hpe.trans rfl)))
          · rw [hq] at h
            dsimp only at h
            have hqqOK : QueueOK b.order_store Side.ask order.price qq := by
              have := hco.2.1.2 _ (pmGet_mem hq)
              exact this
            by_cases hflt : qq.filter (fun i => decide (i ≠ internal)) = []
            · rw [if_pos hflt] at h
              simp only [Prod.mk.injEq] at h
              rw [← h.2]
              constructor
              · refine ⟨⟨hco.1.1, ?_⟩, ⟨pmErase_pairwise _ hco.2.1.1, ?_⟩, hwf2⟩
                · exact fun e he => queueOK_remove_other hget (hco.1.2 e he)
                    (Or.inl (by rw [hside]; decide))
                · exact fun e he => queueOK_remove_other hget
                    (hco.2.1.2 e (pmErase_subset he))
                    (Or.inr (pmErase_mem_ne he))
              · intro eb hb ea ha
                exact hun eb hb ea (pmErase_subset ha)
            · rw [if_neg hflt] at h
              simp only [Prod.mk.injEq] at h
              rw [← h.2]
              constructor
              · refine ⟨⟨hco.1.1, ?_⟩, ⟨?_, ?_⟩, hwf2⟩
                · exact fun e he => queueOK_remove_other hget (hco.1.2 e he)
                    (Or.inl (by rw [hside]; decide))
                · rw [pmSet_keys]
                  exact hco.2.1.1
                · intro e he
                  rcases pmSet_mem he with ⟨h1, h2⟩ | ⟨h1, q0, hq0⟩
                  · exact queueOK_remove_other hget (hco.2.1.2 e h1) (Or.inr h2)
                  · subst h1
                    exact queueOK_remove_filter hqqOK
              · intro eb hb ea ha
                rcases pmSet_mem ha with ⟨h1, _⟩ | ⟨h1, q0, hq0⟩
                · exact hun eb hb ea h1
                · rw [h1]
                  exact hun eb hb (order.price, q0) hq0

end VelocityDex

namespace VelocityDex

/-- Every reachable book is coherent and uncrossed. -/
theorem reachable_inv {b : OrderBook} (h : Reachable b) :
    Cohere b ∧ Uncrossed b := by
  induction h with
  | new =>
    refine ⟨⟨⟨?_, ?_⟩, ⟨?_, ?_⟩, ?_⟩, ?_⟩
    · simp [OrderBook.new]
    · intro e he
      simp [OrderBook.new] at he
    · simp [OrderBook.new]
    · intro e he
      simp [OrderBook.new] at he
    · refine ⟨[], FreeChain.nil, List.nodup_nil, ?_⟩
      intro j k hjk
      simp [OrderBook.new, Slab.empty] at hjk
    · intro eb hb
      simp [OrderBook.new] at hb
  | place _ hp ih => exact place_preserve ih.1 ih.2 hp
  | cancel _ hc ih => exact cancel_preserve ih.1 ih.2 hc

/-! ### C3: the book is uncrossed at rest -/

/-- C3: any book reachable from the empty book by completed place and
cancel calls is uncrossed: a side is empty, or the highest bid (the last
key of the ascending bid map, as the matcher itself reads it) is strictly
below the lowest ask (the first key of the ask map). -/
theorem reachable_book_uncrossed (b : OrderBook) (h : Reachable b) :
    b.bids = [] ∨ b.asks = [] ∨
      (∃ eb ea, b.bids.getLast? = some eb ∧ b.asks.head? = some ea ∧
        eb.1 < ea.1) := by
  have hun := (reachable_inv h).2
  by_cases hb : b.bids = []
  · exact Or.inl hb
  · by_cases ha : b.asks = []
    · exact Or.inr (Or.inl ha)
    · refine Or.inr (Or.inr ?_)
      obtain ⟨eb, hbl⟩ := Option.isSome_iff_exists.mp
        (by rw [List.getLast?_isSome]; exact hb)
      obtain ⟨ea, hah⟩ := Option.isSome_iff_exists.mp
        (by rw [List.head?_isSome]; exact ha)
      refine ⟨eb, ea, hbl, hah, ?_⟩
      exact hun eb (List.mem_of_mem_getLast? (by simp [hbl]))
        ea (List.mem_of_mem_head? (by simp [hah]))

/-! ### C6: trades carry the maker's resting price -/

/-- C6: every `TradeExecuted` event a completed `place_limit_order` call on
a reachable book emits carries the price of the resting maker order it
consumed (an opposite-side order live in the pre-call book with that id),
never the incoming taker's limit (which appears only if it equals the
maker's price). -/
theorem trades_at_maker_price (b : OrderBook) (h : Reachable b)
    (order_id user_id price quantity : Nat) (side : Side)
    (ev : List EngineEvent) (b' : OrderBook)
    (hp : place_limit_order b order_id user_id side price quantity = some (ev, b'))
    (m t pr tq : Nat) (hm : EngineEvent.tradeExecuted m t pr tq ∈ ev) :
    t = order_id ∧ ∃ i o, slabGet b.order_store i = some o ∧ o.id = m ∧
      o.price = pr ∧ o.side = side.opposite := by
  have hco := (reachable_inv h).1
  rw [place_limit_order_eq] at hp
  rcases hml : matchLoop side order_id user_id price (oppLen side b + 1)
      quantity b [] with _ | ⟨qty1, b1, ev1⟩
  · rw [hml] at hp
    simp at hp
  · rw [hml] at hp
    dsimp only at hp
    have hm1 : EngineEvent.tradeExecuted m t pr tq ∈ ev1 := by
      by_cases h1 : qty1 > 0
      · rw [if_pos h1] at hp
        rcases hins : slabInsert b1.order_store
            { id := order_id, user_id := user_id, price := price,
              quantity := qty1, side := side, timestamp := 0 } with _ | ⟨idx, st2⟩
        · rw [hins] at hp
          simp at hp
        · rw [hins] at hp
          simp only [Option.some.injEq, Prod.mk.injEq] at hp
          rw [← hp.1] at hm
          rcases List.mem_append.mp hm with h2 | h2
          · exact h2
          · simp at h2
      · rw [if_neg h1] at hp
        simp only [Option.some.injEq, Prod.mk.injEq] at hp
        rw [← hp.1] at hm
        exact hm
    rcases matchLoop_trades_src side order_id user_id price _ _ _ _ hml
        _ hm1 with h1 | ⟨cid, h1⟩ | ⟨m2, tq2, bp, q, i, o, heq, hlev, hiq, hio, hid⟩
    · simp at h1
    · simp at h1
    · simp only [EngineEvent.tradeExecuted.injEq] at heq
      obtain ⟨hm2, ht, hbp, htq⟩ := heq
      refine ⟨ht, i, o, hio, ?_, ?_, ?_⟩
      · rw [← hm2] at hid
        exact hid
      · obtain ⟨o2, ho2, _, hop2⟩ := ((cohere_opp hco side).2 _ hlev).2 i hiq
        rw [hio] at ho2
        simp only [Option.some.injEq] at ho2
        subst ho2
        rw [← hbp] at hop2
        exact hop2
      · obtain ⟨o2, ho2, hos2, _⟩ := ((cohere_opp hco side).2 _ hlev).2 i hiq
        rw [hio] at ho2
        simp only [Option.some.injEq] at ho2
        subst ho2
        exact hos2

end VelocityDex

namespace VelocityDex

/-! ### Towards C7: cancel only ever thins one queue -/

theorem pmGet_pmErase {m : PriceMap} {p pr : Nat} {q2 : List Nat}
    (h : pmGet (pmErase m p) pr = some q2) : pr ≠ p ∧ pmGet m pr = some q2 := by
  induction m with
  | nil => simp [pmErase, pmGet] at h
  | cons e rest ih =>
    unfold pmErase at h
    rw [List.filter_cons] at h
    by_cases hp : e.1 = p
    · rw [if_neg (by simp [hp])] at h
      obtain ⟨hne, hrest⟩ := ih h
      refine ⟨hne, ?_⟩
      unfold pmGet
      rw [if_neg (by omega)]
      exact hrest
    · rw [if_pos (by simpa using hp)] at h
      unfold pmGet at h ⊢
      by_cases hpe : e.1 = pr
      · rw [if_pos hpe] at h ⊢
        exact ⟨by omega, h⟩
      · rw [if_neg hpe] at h ⊢
        exact ih h

theorem pmGet_pmSet {m : PriceMap} {p pr : Nat} {qn q2 : List Nat}
    (h : pmGet (pmSet m p qn) pr = some q2) :
    (pr = p ∧ q2 = qn) ∨ (pr ≠ p ∧ pmGet m pr = some q2) := by
  induction m with
  | nil => simp [pmSet, pmGet] at h
  | cons e rest ih =>
    unfold pmSet at h
    rw [List.map_cons] at h
    by_cases hp : e.1 = p
    · rw [if_pos hp] at h
      unfold pmGet at h
      by_cases hpe : p = pr
      · rw [if_pos hpe] at h
        simp only [Option.some.injEq] at h
        exact Or.inl ⟨hpe.symm, h.symm⟩
      · rw [if_neg hpe] at h
        rcases ih h with h1 | h1
        · exact Or.inl h1
        · refine Or.inr ⟨h1.1, ?_⟩
          unfold pmGet
          rw [if_neg (by omega)]
          exact h1.2
    · rw [if_neg hp] at h
      unfold pmGet at h ⊢
      by_cases hpe : e.1 = pr
      · rw [if_pos hpe] at h ⊢
        exact Or.inr ⟨by omega, h⟩
      · rw [if_neg hpe] at h ⊢
        exact ih h

/-- `cancel_order` never reorders a queue: every level of the resulting
book is a sublist (same relative order) of that level in the input book. -/
theorem cancel_queue_sublist (b2 : OrderBook) (cid cuid : Nat) (sd : Side)
    (pr : Nat) (q2 : List Nat)
    (hc : pmGet ((cancel_order b2 cid cuid).2.sideMap sd) pr = some q2) :
    ∃ q1, pmGet (b2.sideMap sd) pr = some q1 ∧ q2.Sublist q1 := by
  unfold cancel_order at hc
  rcases hidx : idxLookup b2.order_index cid with _ | internal
  · rw [hidx] at hc
    exact ⟨q2, hc, List.Sublist.refl q2⟩
  · rw [hidx] at hc
    dsimp only at hc
    rcases hget : slabGet b2.order_store internal with _ | order
    · rw [hget] at hc
      exact ⟨q2, hc, List.Sublist.refl q2⟩
    · rw [hget] at hc
      dsimp only at hc
      by_cases huser : order.user_id ≠ cuid
      · rw [if_pos huser] at hc
        exact ⟨q2, hc, List.Sublist.refl q2⟩
      · rw [if_neg huser] at hc
        rcases hside : order.side with _ | _
        · rw [hside] at hc
          dsimp only at hc
          rcases hq : pmGet b2.bids order.price with _ | qq
          · rw [hq] at hc
            dsimp only at hc
            exact ⟨q2, hc, List.Sublist.refl q2⟩
          · rw [hq] at hc
            dsimp only at hc
            by_cases hflt : qq.filter (fun i => decide (i ≠ internal)) = []
            · rw [if_pos hflt] at hc
              cases sd
              · -- bid side: the erased level cannot be found
                have hc2 : pmGet (pmErase b2.bids order.price) pr = some q2 := hc
                obtain ⟨hne, hq2⟩ := pmGet_pmErase hc2
                exact ⟨q2, hq2, List.Sublist.refl q2⟩
              · exact ⟨q2, hc, List.Sublist.refl q2⟩
            · rw [if_neg hflt] at hc
              cases sd
              · have hc2 : pmGet (pmSet b2.bids order.price
                    (qq.filter (fun i => decide (i ≠ internal)))) pr = some q2 := hc
                rcases pmGet_pmSet hc2 with ⟨hpe, hq2⟩ | ⟨hne, hq2⟩
                · subst hpe
                  subst hq2
                  exact ⟨qq, hq, List.filter_sublist qq⟩
                · exact ⟨q2, hq2, List.Sublist.refl q2⟩
              · exact ⟨q2, hc, List.Sublist.refl q2⟩
        · rw [hside] at hc
          dsimp only at hc
          rcases hq : pmGet b2.asks order.price with _ | qq
          · rw [hq] at hc
            dsimp only at hc
            exact ⟨q2, hc, List.Sublist.refl q2⟩
          · rw [hq] at hc
            dsimp only at hc
            by_cases hflt : qq.filter (fun i => decide (i ≠ internal)) = []
            · rw [if_pos hflt] at hc
              cases sd
              · exact ⟨q2, hc, List.Sublist.refl q2⟩
              · have hc2 : pmGet (pmErase b2.asks order.price) pr = some q2 := hc
                obtain ⟨hne, hq2⟩ := pmGet_pmErase hc2
                exact ⟨q2, hq2, List.Sublist.refl q2⟩
            · rw [if_neg hflt] at hc
              cases sd
              · exact ⟨q2, hc, List.Sublist.refl q2⟩
              · have hc2 : pmGet (pmSet b2.asks order.price
                    (qq.filter (fun i => decide (i ≠ internal)))) pr = some q2 := hc
                rcases pmGet_pmSet hc2 with ⟨hpe, hq2⟩ | ⟨hne, hq2⟩
                · subst hpe
                  subst hq2
                  exact ⟨qq, hq, List.filter_sublist qq⟩
                · exact ⟨q2, hq2, List.Sublist.refl q2⟩

end VelocityDex

namespace VelocityDex

/-- A one-level opposite side is what the matcher inspects first, whether
through `asks.iter_mut().next()` or `bids.iter_mut().next_back()`. -/
theorem bestOpp_of_singleton (sd : Side) (b : OrderBook) (p : Nat)
    (q : List Nat) (h : oppMap sd b = [(p, q)]) : bestOpp sd b = some (p, q) := by
  cases sd
  · simp only [oppMap] at h
    simp [bestOpp, h]
  · simp only [oppMap] at h
    simp [bestOpp, h]

theorem bestOpp_of_empty (sd : Side) (b : OrderBook)
    (h : oppMap sd b = []) : bestOpp sd b = none := by
  cases sd
  · simp only [oppMap] at h
    simp [bestOpp, h]
  · simp only [oppMap] at h
    simp [bestOpp, h]

/-- FIFO fills and removals on a one-level book, for either resting side:
the trade makers are a front prefix of the level's queue ids, and the
surviving level (if any) holds the matching tail of the queue — the makers
in front of it were popped and removed. -/
theorem place_fifo_single_level (b : OrderBook) (h : Reachable b)
    (sd : Side) (p price order_id user_id quantity : Nat) (q : List Nat)
    (ev : List EngineEvent) (b' : OrderBook)
    (hopp : oppMap sd b = [(p, q)])
    (husers : ∀ i ∈ q, ∀ o, slabGet b.order_store i = some o → o.user_id ≠ user_id)
    (hmat : isMatchable sd price p = true)
    (hp : place_limit_order b order_id user_id sd price quantity = some (ev, b')) :
    (∃ k, tradeMakers ev = (queueIds b.order_store q).take k) ∧
    (oppMap sd b' = [] ∨ ∃ k2, oppMap sd b' = [(p, q.drop k2)]) := by
  have hco := (reachable_inv h).1
  have hlev : (p, q) ∈ oppMap sd b := by
    rw [hopp]
    exact List.mem_singleton.mpr rfl
  have hqOK : QueueOK b.order_store sd.opposite p q := (cohere_opp hco sd).2 _ hlev
  rw [place_limit_order_eq] at hp
  by_cases hq0 : quantity = 0
  · subst hq0
    rw [matchLoop_zero_qty] at hp
    dsimp only at hp
    rw [if_neg (by omega)] at hp
    simp only [Option.some.injEq, Prod.mk.injEq] at hp
    constructor
    · rw [← hp.1]
      exact ⟨0, by simp [tradeMakers]⟩
    · right
      exact ⟨0, by rw [← hp.2, hopp, List.drop_zero]⟩
  · have hbest : bestOpp sd b = some (p, q) := bestOpp_of_singleton sd b p q hopp
    have hocc : ∀ i ∈ q, ∃ o, slabGet b.order_store i = some o :=
      fun i hi => (hqOK.2 i hi).imp (fun o ho => ho.1)
    have hsome := fillQueue_isSome user_id order_id p quantity q
      b.order_store [] hocc hqOK.1
    rw [Option.isSome_iff_exists] at hsome
    obtain ⟨⟨qm, qq, st, evm⟩, hf⟩ := hsome
    rw [matchLoop_step _ _ _ _ _ _ _ _ _ _ _ _ _ _ hq0 hbest hmat hf] at hp
    have hF : oppLen sd b = 0 + 1 := by
      simp [oppLen_eq, hopp]
    rw [hF] at hp
    obtain ⟨k, hk⟩ := fillQueue_fifo _ _ _ _ _ _ _ hf hqOK.1 husers
    have hevm : tradeMakers evm = (queueIds b.order_store q).take k := by
      simpa [tradeMakers] using hk
    obtain ⟨k2, hk2⟩ := fillQueue_queue_suffix _ _ _ _ _ _ _ hf
    have hopp2 : oppMap sd (matchStepBook sd b p qq st) =
        if qq = [] then [] else [(p, qq)] := by
      rw [matchStepBook_opp, hopp]
      by_cases hqq : qq = []
      · simp [hqq, pmErase]
      · simp [hqq, pmSet]
    by_cases hqm : qm = 0
    · subst hqm
      rw [matchLoop_zero_qty] at hp
      dsimp only at hp
      rw [if_neg (by omega)] at hp
      simp only [Option.some.injEq, Prod.mk.injEq] at hp
      constructor
      · rw [← hp.1]
        exact ⟨k, hevm⟩
      · rw [← hp.2, hopp2]
        by_cases hqq : qq = []
        · left
          simp [hqq]
        · right
          exact ⟨k2, by rw [if_neg hqq, hk2]⟩
    · have hqq : qq = [] := fillQueue_pos_empty _ _ _ _ _ _ _ hf hqm
      subst hqq
      have hb2 : bestOpp sd (matchStepBook sd b p [] st) = none :=
        bestOpp_of_empty sd _ (by rw [hopp2]; simp)
      rw [matchLoop_no_best _ _ _ _ _ _ _ _ hqm hb2] at hp
      dsimp only at hp
      rw [if_pos (by omega)] at hp
      rcases hins : slabInsert (matchStepBook sd b p [] st).order_store
          { id := order_id, user_id := user_id, price := price,
            quantity := qm, side := sd, timestamp := 0 } with _ | ⟨idx, st2⟩
      · rw [hins] at hp
        simp at hp
      · rw [hins] at hp
        dsimp only at hp
        simp only [Option.some.injEq, Prod.mk.injEq] at hp
        constructor
        · rw [← hp.1]
          refine ⟨k, ?_⟩
          rw [tradeMakers_append, hevm]
          simp [tradeMakers]
        · left
          rw [← hp.2, restBook_opp, hopp2]
          simp

/-! ### C7: FIFO within a price level, cancel preserves queue order -/

/-- C7: on a reachable book whose resting orders all sit in one price level
on one side (either side), with makers' users distinct from the taker, a
matchable incoming order on the other side fills and removes the makers in
strict queue (arrival) order — the emitted trade makers are a front prefix
of the level's ids and the surviving level, if any, holds the matching tail
of the original queue — and `cancel_order` preserves the relative order of
the surviving queue entries of every level. -/
theorem fifo_within_price_level (b : OrderBook) (h : Reachable b)
    (sd : Side) (p price order_id user_id quantity : Nat) (q : List Nat)
    (ev : List EngineEvent) (b' : OrderBook)
    (hopp : oppMap sd b = [(p, q)])
    (husers : ∀ i ∈ q, ∀ o, slabGet b.order_store i = some o → o.user_id ≠ user_id)
    (hmat : isMatchable sd price p = true)
    (hp : place_limit_order b order_id user_id sd price quantity = some (ev, b'))
    (b2 : OrderBook) (cid cuid : Nat) (sd2 : Side) (pr : Nat) (q2 : List Nat)
    (hc : pmGet ((cancel_order b2 cid cuid).2.sideMap sd2) pr = some q2) :
    ((∃ k, tradeMakers ev = (queueIds b.order_store q).take k) ∧
      (oppMap sd b' = [] ∨ ∃ k2, oppMap sd b' = [(p, q.drop k2)])) ∧
    (∃ q1, pmGet (b2.sideMap sd2) pr = some q1 ∧ q2.Sublist q1) :=
  ⟨place_fifo_single_level b h sd p price order_id user_id quantity q ev b'
      hopp husers hmat hp,
    cancel_queue_sublist b2 cid cuid sd2 pr q2 hc⟩

end VelocityDex

namespace VelocityDex

/-! ### Concrete witnesses for C3, C6 and C7 -/

def uncrossedBookA : OrderBook :=
  ⟨⟨[.occupied ⟨1, 1, 100, 10, .bid, 0⟩], 1⟩, [(100, [0])], [], [(1, 0)], 0⟩

def uncrossedBookB : OrderBook :=
  ⟨⟨[.occupied ⟨1, 1, 100, 10, .bid, 0⟩, .occupied ⟨2, 2, 105, 5, .ask, 0⟩], 2⟩,
   [(100, [0])], [(105, [1])], [(2, 1), (1, 0)], 0⟩

/-- Witness for C3: bid at 100 and ask at 105 resting; the book is
uncrossed. -/
theorem reachable_book_uncrossed_witness :
    uncrossedBookB.bids = [] ∨ uncrossedBookB.asks = [] ∨
      (∃ eb ea, uncrossedBookB.bids.getLast? = some eb ∧
        uncrossedBookB.asks.head? = some ea ∧ eb.1 < ea.1) := by
  have h1 : place_limit_order OrderBook.new 1 1 Side.bid 100 10 =
      some ([.orderPlaced 1 1 100 10 .bid], uncrossedBookA) := by decide
  have h2 : place_limit_order uncrossedBookA 2 2 Side.ask 105 5 =
      some ([.orderPlaced 2 2 105 5 .ask], uncrossedBookB) := by decide
  exact reachable_book_uncrossed uncrossedBookB
    (Reachable.place (Reachable.place Reachable.new h1) h2)

def makerPriceBook : OrderBook :=
  ⟨⟨[.occupied ⟨1, 1, 100, 10, .ask, 0⟩], 1⟩, [], [(100, [0])], [(1, 0)], 0⟩

/-- Witness for C6: a bid limited at 105 trades against the resting ask at
100; the trade price is the maker's 100. -/
theorem trades_at_maker_price_witness :
    2 = 2 ∧ ∃ i o, slabGet makerPriceBook.order_store i = some o ∧
      o.id = 1 ∧ o.price = 100 ∧ o.side = Side.bid.opposite := by
  have h1 : place_limit_order OrderBook.new 1 1 Side.ask 100 10 =
      some ([.orderPlaced 1 1 100 10 .ask], makerPriceBook) := by decide
  have h2 : place_limit_order makerPriceBook 2 2 Side.bid 105 7 =
      some ([.tradeExecuted 1 2 100 7],
        ⟨⟨[.occupied ⟨1, 1, 100, 3, .ask, 0⟩], 1⟩, [], [(100, [0])],
          [(1, 0)], 0⟩) := by decide
  exact trades_at_maker_price makerPriceBook
    (Reachable.place Reachable.new h1) 2 2 105 7 Side.bid
    [.tradeExecuted 1 2 100 7] _ h2 1 2 100 7 (by decide)

def fifoBookA : OrderBook :=
  ⟨⟨[.occupied ⟨1, 3, 100, 5, .bid, 0⟩], 1⟩, [(100, [0])], [], [(1, 0)], 0⟩

def fifoBookB : OrderBook :=
  ⟨⟨[.occupied ⟨1, 3, 100, 5, .bid, 0⟩, .occupied ⟨2, 4, 100, 6, .bid, 0⟩], 2⟩,
   [(100, [0, 1])], [], [(2, 1), (1, 0)], 0⟩

def fifoBookC : OrderBook :=
  ⟨⟨[.vacant 2, .occupied ⟨2, 4, 100, 3, .bid, 0⟩], 0⟩,
   [(100, [1])], [], [(2, 1), (1, 0)], 0⟩

/-- Witness for C7: two resting bids at 100 (users 3 and 4); user 9's ask
for 8 fills maker 1 then maker 2 in arrival order, leaving the level's
queue tail, and a cancel leaves the queue order intact. -/
theorem fifo_within_price_level_witness :
    ((∃ k, tradeMakers [.tradeExecuted 1 5 100 5, .tradeExecuted 2 5 100 3] =
        (queueIds fifoBookB.order_store [0, 1]).take k) ∧
      (oppMap .ask fifoBookC = [] ∨
        ∃ k2, oppMap .ask fifoBookC = [(100, List.drop k2 [0, 1])])) ∧
    (∃ q1, pmGet (fifoBookB.sideMap .bid) 100 = some q1 ∧
      List.Sublist [1] q1) := by
  have h1 : place_limit_order OrderBook.new 1 3 Side.bid 100 5 =
      some ([.orderPlaced 1 3 100 5 .bid], fifoBookA) := by decide
  have h2 : place_limit_order fifoBookA 2 4 Side.bid 100 6 =
      some ([.orderPlaced 2 4 100 6 .bid], fifoBookB) := by decide
  have hreach : Reachable fifoBookB :=
    Reachable.place (Reachable.place Reachable.new h1) h2
  have h3 : place_limit_order fifoBookB 5 9 Side.ask 100 8 =
      some ([.tradeExecuted 1 5 100 5, .tradeExecuted 2 5 100 3],
        fifoBookC) := by decide
  have husers : ∀ i ∈ [0, 1], ∀ o : Order,
      slabGet fifoBookB.order_store i = some o → o.user_id ≠ 9 := by
    intro i hi o ho
    have hi2 : i = 0 ∨ i = 1 := by simpa using hi
    rcases hi2 with rfl | rfl
    · have h0 : slabGet fifoBookB.order_store 0 =
          some ⟨1, 3, 100, 5, .bid, 0⟩ := by decide
      rw [h0] at ho
      simp only [Option.some.injEq] at ho
      rw [← ho]
      decide
    · have h0 : slabGet fifoBookB.order_store 1 =
          some ⟨2, 4, 100, 6, .bid, 0⟩ := by decide
      rw [h0] at ho
      simp only [Option.some.injEq] at ho
      rw [← ho]
      decide
  have hc : pmGet ((cancel_order fifoBookB 1 3).2.sideMap .bid) 100 =
      some [1] := by decide
  exact fifo_within_price_level fifoBookB hreach .ask 100 100 5 9 8 [0, 1]
    [.tradeExecuted 1 5 100 5, .tradeExecuted 2 5 100 3] fifoBookC
    (by decide) husers (by decide) h3 fifoBookB 1 3 .bid 100 [1] hc

end VelocityDex

namespace VelocityDex

/-! ### The WAL byte model (wal.rs)

`bincode` 1.x with its default options writes fixed-width little-endian
integers and `u32` variant tags, so a `LogEntry` record is a `u32` tag
followed by the `u64` fields (with `Side` as another `u32` tag).  The file
is the concatenation of such records; `read_all` deserializes records until
the first failure. -/

/-- Fixed-width little-endian encoding, `k` bytes. -/
def encodeLE : Nat → Nat → List Nat
  | 0, _ => []
  | k + 1, n => n % 256 :: encodeLE k (n / 256)

/-- Little-endian byte recombination. -/
def decodeLE : List Nat → Nat
  | [] => 0
  | b :: bs => b + 256 * decodeLE bs

/-- Read `k` bytes as a little-endian integer; fails at end of file. -/
def readLE (k : Nat) (bs : List Nat) : Option (Nat × List Nat) :=
  if k ≤ bs.length then some (decodeLE (bs.take k), bs.drop k) else none

/-- Serialization of one `LogEntry` (bincode fixint little-endian). -/
def encodeLogEntry : LogEntry → List Nat
  | .place oid uid sd p q =>
    encodeLE 4 0 ++ encodeLE 8 oid ++ encodeLE 8 uid ++
      encodeLE 4 (match sd with | .bid => 0 | .ask => 1) ++
      encodeLE 8 p ++ encodeLE 8 q
  | .cancel oid uid => encodeLE 4 1 ++ encodeLE 8 oid ++ encodeLE 8 uid

/-- The WAL file body: records written back to back, in write order. -/
def encodeWal (entries : List LogEntry) : List Nat :=
  (entries.map encodeLogEntry).flatten

/-- One `bincode::deserialize_from` step. -/
def deserializeLogEntry (bs : List Nat) : Option (LogEntry × List Nat) :=
  match readLE 4 bs with
  | none => none
  | some (tag, r1) =>
    if tag = 0 then
      match readLE 8 r1 with
      | none => none
      | some (oid, r2) =>
        match readLE 8 r2 with
        | none => none
        | some (uid, r3) =>
          match readLE 4 r3 with
          | none => none
          | some (sdtag, r4) =>
            match (if sdtag = 0 then some Side.bid
                   else if sdtag = 1 then some Side.ask else none) with
            | none => none
            | some sd =>
              match readLE 8 r4 with
              | none => none
              | some (p, r5) =>
                match readLE 8 r5 with
                | none => none
                | some (q, r6) => some (.place oid uid sd p q, r6)
    else if tag = 1 then
      match readLE 8 r1 with
      | none => none
      | some (oid, r2) =>
        match readLE 8 r2 with
        | none => none
        | some (uid, r3) => some (.cancel oid uid, r3)
    else none

/-- The `loop { match deserialize_from ... }` of `read_all` (wal.rs lines
51-56).  `fuel` bounds the iterations; every successful record consumes at
least the four tag bytes, so `length + 1` iterations always suffice. -/
def readAllAux : Nat → List Nat → List LogEntry
  | 0, _ => []
  | fuel + 1, bs =>
    match deserializeLogEntry bs with
    | none => []
    | some (e, rest) => e :: readAllAux fuel rest

/-- `WalHandler::read_all` (wal.rs lines 40-59): an absent file yields no
entries; otherwise records are read until the first failure. -/
def read_all : Option (List Nat) → List LogEntry
  | none => []
  | some bs => readAllAux (bs.length + 1) bs

/-- Field bounds of one entry (all fields are `u64` on the Rust side). -/
def entryBounded : LogEntry → Bool
  | .place oid uid _ p q =>
    decide (oid < 2 ^ 64) && decide (uid < 2 ^ 64) &&
      decide (p < 2 ^ 64) && decide (q < 2 ^ 64)
  | .cancel oid uid => decide (oid < 2 ^ 64) && decide (uid < 2 ^ 64)

end VelocityDex

namespace VelocityDex

theorem encodeLE_length (k n : Nat) : (encodeLE k n).length = k := by
  induction k generalizing n with
  | zero => rfl
  | succ k ih => simp [encodeLE, ih]

theorem decodeLE_encodeLE (k n : Nat) : decodeLE (encodeLE k n) = n % 256 ^ k := by
  induction k generalizing n with
  | zero => simp [encodeLE, decodeLE, Nat.mod_one]
  | succ k ih =>
    rw [encodeLE, decodeLE, ih, pow_succ']
    exact (Nat.mod_mul).symm

theorem readLE_encodeLE (k n : Nat) (rest : List Nat) :
    readLE k (encodeLE k n ++ rest) = some (n % 256 ^ k, rest) := by
  unfold readLE
  rw [if_pos (by simp [List.length_append, encodeLE_length])]
  rw [List.take_left' (encodeLE_length k n), List.drop_left' (encodeLE_length k n),
    decodeLE_encodeLE]

theorem deserializeLogEntry_nil : deserializeLogEntry [] = none := by
  unfold deserializeLogEntry readLE
  simp

/-- A well-bounded record deserializes back to itself, leaving the rest of
the stream untouched. -/
theorem deserializeLogEntry_encode {e : LogEntry} (hb : entryBounded e = true)
    (rest : List Nat) :
    deserializeLogEntry (encodeLogEntry e ++ rest) = some (e, rest) := by
  have h864 : (256 : Nat) ^ 8 = 2 ^ 64 := by norm_num
  cases e with
  | place oid uid sd p q =>
    simp only [entryBounded, Bool.and_eq_true, decide_eq_true_eq] at hb
    obtain ⟨⟨⟨h1, h2⟩, h3⟩, h4⟩ := hb
    have m1 : oid % 256 ^ 8 = oid := by rw [h864]; exact Nat.mod_eq_of_lt h1
    have m2 : uid % 256 ^ 8 = uid := by rw [h864]; exact Nat.mod_eq_of_lt h2
    have m3 : p % 256 ^ 8 = p := by rw [h864]; exact Nat.mod_eq_of_lt h3
    have m4 : q % 256 ^ 8 = q := by rw [h864]; exact Nat.mod_eq_of_lt h4
    have hnum : (2 : Nat) ^ 64 = 18446744073709551616 := by norm_num
    rw [hnum] at h1 h2 h3 h4
    cases sd <;>
      (simp [encodeLogEntry, List.append_assoc, deserializeLogEntry,
        readLE_encodeLE, m1, m2, m3, m4, Nat.zero_mod,
        Nat.mod_eq_of_lt (show (1:Nat) < 256 ^ 4 by norm_num)]
       <;> exact ⟨h1, h2, h3, h4⟩)
  | cancel oid uid =>
    simp only [entryBounded, Bool.and_eq_true, decide_eq_true_eq] at hb
    obtain ⟨h1, h2⟩ := hb
    have m1 : oid % 256 ^ 8 = oid := by rw [h864]; exact Nat.mod_eq_of_lt h1
    have m2 : uid % 256 ^ 8 = uid := by rw [h864]; exact Nat.mod_eq_of_lt h2
    have hnum : (2 : Nat) ^ 64 = 18446744073709551616 := by norm_num
    rw [hnum] at h1 h2
    simp [encodeLogEntry, List.append_assoc, deserializeLogEntry,
      readLE_encodeLE, m1, m2,
      Nat.mod_eq_of_lt (show (1:Nat) < 256 ^ 4 by norm_num)]
    exact ⟨h1, h2⟩

theorem encodeLogEntry_len_pos (e : LogEntry) : 0 < (encodeLogEntry e).length := by
  cases e <;> simp [encodeLogEntry, encodeLE_length]

/-- The reader returns exactly the well-formed prefix, stopping at the
first record that fails to deserialize. -/
theorem readAllAux_encode (entries : List LogEntry) (junk : List Nat) :
    ∀ fuel, (∀ e ∈ entries, entryBounded e = true) →
      deserializeLogEntry junk = none →
      (encodeWal entries ++ junk).length + 1 ≤ fuel →
      readAllAux fuel (encodeWal entries ++ junk) = entries := by
  induction entries with
  | nil =>
    intro fuel hb hj hfuel
    cases fuel with
    | zero => rfl
    | succ f =>
      simp only [encodeWal, List.map_nil, List.flatten_nil, List.nil_append]
      rw [readAllAux, hj]
  | cons e es ih =>
    intro fuel hb hj hfuel
    have hbytes : encodeWal (e :: es) ++ junk =
        encodeLogEntry e ++ (encodeWal es ++ junk) := by
      simp [encodeWal, List.flatten_cons, List.append_assoc]
    rw [hbytes] at hfuel ⊢
    have hpos := encodeLogEntry_len_pos e
    obtain ⟨f, rfl⟩ : ∃ f, fuel = f + 1 := by
      refine ⟨fuel - 1, ?_⟩
      simp [List.length_append] at hfuel
      omega
    rw [readAllAux, deserializeLogEntry_encode (hb e (by simp))]
    dsimp only
    rw [ih f (fun x hx => hb x (by simp [hx])) hj
      (by simp [List.length_append] at hfuel ⊢; omega)]

end VelocityDex

namespace VelocityDex

theorem read_all_encodeWal (entries : List LogEntry)
    (hb : ∀ e ∈ entries, entryBounded e = true) :
    read_all (some (encodeWal entries)) = entries := by
  have h := readAllAux_encode entries [] ((encodeWal entries).length + 1) hb
    deserializeLogEntry_nil (by simp)
  simpa [read_all] using h

theorem read_all_encodeWal_junk (entries : List LogEntry) (junk : List Nat)
    (hb : ∀ e ∈ entries, entryBounded e = true)
    (hj : deserializeLogEntry junk = none) :
    read_all (some (encodeWal entries ++ junk)) = entries := by
  exact readAllAux_encode entries junk ((encodeWal entries ++ junk).length + 1)
    hb hj (le_refl _)

/-! ### C9: `read_all` semantics -/

/-- C9: `read_all` yields no entries when the file is absent, returns a
well-formed log's entries in their original write order, and stops at a
record that fails to deserialize, returning the entries read so far rather
than failing. -/
theorem wal_read_all_spec (entries : List LogEntry) (junk : List Nat)
    (hb : ∀ e ∈ entries, entryBounded e = true)
    (hj : deserializeLogEntry junk = none) :
    read_all none = [] ∧
    read_all (some (encodeWal entries)) = entries ∧
    read_all (some (encodeWal entries ++ junk)) = entries :=
  ⟨rfl, read_all_encodeWal entries hb, read_all_encodeWal_junk entries junk hb hj⟩

/-- Witness for C9: a two-record log followed by a one-byte corrupt tail. -/
theorem wal_read_all_spec_witness :
    read_all none = [] ∧
    read_all (some (encodeWal [.place 1 2 .bid 100 5, .cancel 1 2])) =
      [.place 1 2 .bid 100 5, .cancel 1 2] ∧
    read_all (some (encodeWal [.place 1 2 .bid 100 5, .cancel 1 2] ++ [7])) =
      [.place 1 2 .bid 100 5, .cancel 1 2] :=
  wal_read_all_spec [.place 1 2 .bid 100 5, .cancel 1 2] [7]
    (by decide) (by decide)

/-! ### C5: WAL replay reconstructs the book -/

/-- C5: replaying a well-formed WAL through the recovery loop (which calls
`place_limit_order` / `cancel_order` in log order on a fresh book) produces
exactly the book obtained by applying the command sequence directly, and in
particular the same depth snapshot at every level. -/
theorem wal_replay_reconstructs (entries : List LogEntry) (limit : Nat)
    (hb : ∀ e ∈ entries, entryBounded e = true) :
    replayAll OrderBook.new (read_all (some (encodeWal entries))) =
      replayAll OrderBook.new entries ∧
    (replayAll OrderBook.new (read_all (some (encodeWal entries)))).map
        (fun bk => get_depth bk limit) =
      (replayAll OrderBook.new entries).map (fun bk => get_depth bk limit) := by
  rw [read_all_encodeWal entries hb]
  exact ⟨rfl, rfl⟩

/-- Witness for C5: the spec's crash-recovery scenario (ask 10 at 100, then
bid 4 at 100). -/
theorem wal_replay_reconstructs_witness :
    replayAll OrderBook.new
        (read_all (some (encodeWal [.place 1 1 .ask 100 10, .place 2 2 .bid 100 4]))) =
      replayAll OrderBook.new [.place 1 1 .ask 100 10, .place 2 2 .bid 100 4] ∧
    (replayAll OrderBook.new
        (read_all (some (encodeWal [.place 1 1 .ask 100 10, .place 2 2 .bid 100 4])))).map
        (fun bk => get_depth bk 10) =
      (replayAll OrderBook.new [.place 1 1 .ask 100 10, .place 2 2 .bid 100 4]).map
        (fun bk => get_depth bk 10) :=
  wal_replay_reconstructs [.place 1 1 .ask 100 10, .place 2 2 .bid 100 4] 10
    (by decide)

end VelocityDex
